import Mathlib

/-!
Formal model of the `komments` CLI core (TypeScript), shallowly embedded in Lean 4.

The repository annotates source files with generated comments, strips comments,
and keeps a JSON history of suggestion batches.  The definitions below are
translated from the TypeScript sources:

  * `src/src/analyzer.ts`      : `extractCodeSnippets`, `generateDefaultComment`,
                                 the AI-reply fallback in `analyzeCode`
  * `src/unnamed/part_001`     : `saveSuggestions`, `applyCommentToFile`,
                                 `getCommentStyle`, `removeCommentsFromContent`,
                                 `scanCodebase`
  * `src/unnamed/part_000`/... : I/O glue, out of scope

JavaScript strings are modelled as `List Char` (Unicode scalar values);
file-system and network effects are factored out so that each modelled function
is the pure content transformation the source performs between its reads and
writes.  JS regular expressions are embedded by a small prioritized
(backtracking, leftmost-first) matching engine; the handful of fixed regexes
used by the comment stripper are embedded as dedicated scanners whose
faithfulness to the JS `String.replace` semantics is argued in their doc
comments.
-/

namespace Komments

/-- The JavaScript `\s` character class (as used by `RegExp` and `String.trim`):
whitespace and line terminators — TAB, LF, VT, FF, CR, space, NBSP, Ogham space
mark, the U+2000–U+200A range, LS, PS, narrow NBSP, medium mathematical space,
ideographic space and BOM. -/
def jsWhitespace (c : Char) : Bool :=
  c = '\t' || c = '\n' || c = '\x0b' || c = '\x0c' || c = '\r' || c = ' ' ||
  c.toNat = 0xa0 || c.toNat = 0x1680 ||
  (0x2000 ≤ c.toNat && c.toNat ≤ 0x200a) ||
  c.toNat = 0x2028 || c.toNat = 0x2029 || c.toNat = 0x202f ||
  c.toNat = 0x205f || c.toNat = 0x3000 || c.toNat = 0xfeff

/-- JavaScript line terminators: the characters `.` does not match and the
positions where a multiline `$` matches (LF, CR, LS, PS). -/
def jsLineTerm (c : Char) : Bool :=
  c = '\n' || c = '\r' || c.toNat = 0x2028 || c.toNat = 0x2029

/-- The character `{`, written via its code point. -/
def openBrace : Char := Char.ofNat 123

/-- The character `}`, written via its code point. -/
def closeBrace : Char := Char.ofNat 125

/-- Lower-casing of a string (JS `String.prototype.toLowerCase` on the
ASCII-only keys this program lower-cases). -/
def lowerStr (s : String) : String := String.mk (s.toList.map Char.toLower)

/-- Does `pat` occur as a contiguous subsequence of `s`?
Embeds JS `String.prototype.includes`. -/
def containsSeq (pat : List Char) : List Char → Bool
  | [] => pat.isEmpty
  | c :: t => pat.isPrefixOf (c :: t) || containsSeq pat t

/-- JS `s.includes(pat)` on strings. -/
def includesStr (s pat : String) : Bool := containsSeq pat.toList s.toList

/-- JS `s.startsWith(pre)` (kernel-reducible form). -/
def strStartsWith (s pre : String) : Bool := pre.toList.isPrefixOf s.toList

/-- JS `s.endsWith(post)` (kernel-reducible form). -/
def strEndsWith (s post : String) : Bool := post.toList.isSuffixOf s.toList

/-- JS `String.prototype.trim`: remove `\s` characters from both ends. -/
def jsTrimChars (cs : List Char) : List Char :=
  ((cs.dropWhile jsWhitespace).reverse.dropWhile jsWhitespace).reverse

/-- JS `String.prototype.trim` on strings. -/
def jsTrim (s : String) : String := String.mk (jsTrimChars s.toList)

/-- JS `content.split(sep)` for a one-character separator: the list of chunks
between occurrences of `sep`; an empty input yields one empty chunk. -/
def splitOnChar (sep : Char) : List Char → List (List Char)
  | [] => [[]]
  | c :: t =>
    if c = sep then [] :: splitOnChar sep t
    else
      match splitOnChar sep t with
      | [] => [[c]]
      | l :: ls => (c :: l) :: ls

/-- JS `parts.join(sep)` for a one-character separator. -/
def joinWithChar (sep : Char) : List (List Char) → List Char
  | [] => []
  | [l] => l
  | l :: ls => l ++ sep :: joinWithChar sep ls

/-- JS `content.split('\n')` on strings. -/
def splitNL (s : String) : List String :=
  (splitOnChar '\n' s.toList).map String.mk

/-- JS `lines.join('\n')` on strings. -/
def joinNL (lines : List String) : String :=
  String.mk (joinWithChar '\n' (lines.map String.toList))

/-- Number of occurrences of a character, embedding
`(line.match(/X/g) || []).length` for a single literal character `X`. -/
def countChar (c : Char) (cs : List Char) : Nat := cs.countP (· = c)

/-- Comment syntax for one language, `interface CommentStyle` of
`src/unnamed/part_001`.  The source fields are named `prefix`/`suffix`; they
are rendered here as `pfx`/`sfx` because `prefix` is a reserved Lean keyword. -/
structure CommentStyle where
  pfx : String
  sfx : String

/-- The `commentStyles` object literal of `getCommentStyle`
(`src/unnamed/part_001`, lines 819-842), as a key-to-style table. -/
def commentStylesTable : List (String × CommentStyle) :=
  [(".js", ⟨"//", ""⟩), (".jsx", ⟨"//", ""⟩), (".ts", ⟨"//", ""⟩), (".tsx", ⟨"//", ""⟩),
   (".py", ⟨"#", ""⟩), (".java", ⟨"//", ""⟩), (".c", ⟨"//", ""⟩), (".cpp", ⟨"//", ""⟩),
   (".cs", ⟨"//", ""⟩), (".go", ⟨"//", ""⟩), (".rb", ⟨"#", ""⟩), (".php", ⟨"//", ""⟩),
   (".swift", ⟨"//", ""⟩), (".rs", ⟨"//", ""⟩), (".html", ⟨"<!--", "-->"⟩),
   (".css", ⟨"/*", "*/"⟩), (".scss", ⟨"//", ""⟩)]

/-- `commentStyles[key] || { prefix: '//', suffix: '' }`. -/
def commentStyleForKey (key : String) : CommentStyle :=
  (commentStylesTable.lookup key).getD ⟨"//", ""⟩

/-- `getCommentStyle` proper: look up the lower-cased extension. -/
def getCommentStyle (extension : String) : CommentStyle :=
  commentStyleForKey (lowerStr extension)

/-- JS `Object.keys` applied to a `CommentStyle` value: every object
`getCommentStyle` returns is a literal with exactly the two own properties
`prefix` and `suffix`, whatever their (possibly empty) string values, so the
key list is always these two names.  Used by `scanCodebase`'s filter. -/
def commentStyleKeys (_style : CommentStyle) : List String := ["prefix", "suffix"]

/-- The `isJSDocComment` test inside `applyCommentToFile`
(`src/unnamed/part_001`, lines 719-724). -/
def isJSDocComment (extension comment : String) : Bool :=
  (extension = ".js" || extension = ".jsx" || extension = ".ts" || extension = ".tsx") &&
  (includesStr comment "@param" || includesStr comment "@return" ||
   includesStr comment "@returns" || includesStr comment "@description" ||
   includesStr comment "@example" || includesStr comment "@typedef" ||
   includesStr comment "@type" || includesStr comment "@function" ||
   includesStr comment "@class")

/-- One line of the JSDoc re-wrapping loop in `applyCommentToFile`: trim, and
if the line starts with a comment leader, strip it with
`replace(/^\/\/|^\*|^\/\*/, '')` (first alternative that matches at the
start) and trim again. -/
def jsdocCleanLine (line : String) : String :=
  let cl := jsTrim line
  if strStartsWith cl "//" || strStartsWith cl "*" || strStartsWith cl "/*" then
    let stripped :=
      if strStartsWith cl "//" then String.mk (cl.toList.drop 2)
      else if strStartsWith cl "*" then String.mk (cl.toList.drop 1)
      else String.mk (cl.toList.drop 2)
    jsTrim stripped
  else cl

/-- The comment-formatting block of `applyCommentToFile`
(`src/unnamed/part_001`, lines 716-754): JSDoc pass-through or re-wrap for the
four JS/TS dialects, then block wrap when the style has a suffix, then
per-line prefixing for multi-line bodies, else a single prefixed line. -/
def formatComment (extension comment : String) : String :=
  let style := getCommentStyle extension
  if isJSDocComment extension comment then
    if strStartsWith comment "/**" && strEndsWith comment "*/" then comment
    else
      "/**\n" ++
        String.join ((splitNL comment).map (fun line => " * " ++ jsdocCleanLine line ++ "\n")) ++
        " */"
  else if style.sfx ≠ "" then
    style.pfx ++ " " ++ comment ++ " " ++ style.sfx
  else if includesStr comment "\n" then
    joinNL ((splitNL comment).map (fun line => style.pfx ++ " " ++ line))
  else
    style.pfx ++ " " ++ comment

/-- JS `lines.splice(idx, 0, x)`: insert `x` before index `idx`, clamping the
index to the array length (ECMAScript `Array.prototype.splice` computes
`actualStart = min(max(relativeStart, 0), len)`). -/
def spliceInsert (l : List String) (idx : Nat) (x : String) : List String :=
  let i := min idx l.length
  l.take i ++ x :: l.drop i

/-- The characters of `p` after its last `/` (Node `path.basename` for the
paths this program builds). -/
def basenameOf (p : String) : String :=
  String.mk ((p.toList.reverse.takeWhile (· ≠ '/')).reverse)

/-- Node `path.extname`: the suffix of the basename from its last dot.  A dot
at position 0 (hidden file) and the basename `..` yield the empty string. -/
def extnameOf (p : String) : String :=
  let base := (basenameOf p).toList
  let revTail := base.reverse.takeWhile (· ≠ '.')
  if revTail.length = base.length then ""
  else
    let i := base.length - revTail.length - 1
    if i = 0 then ""
    else if base = ['.', '.'] then ""
    else String.mk (base.drop i)

/-- `applyCommentToFile` of `src/unnamed/part_001` (lines 703-761) with the
file I/O factored out: its content transformation maps the file content read
at `filePath` to the content written back.  Path resolution against the
working directory does not change the basename, so the extension used for the
comment style is that of `filePath` itself. -/
def applyCommentToFile (filePath content : String) (lineNumber : Nat) (comment : String) : String :=
  let lines := splitNL content
  let extension := lowerStr (extnameOf filePath)
  let formattedComment := formatComment extension comment
  joinNL (spliceInsert lines (lineNumber - 1) formattedComment)

/-- State of the streaming scanner embedding the line-comment pass
`content.replace(new RegExp(escPrefix + '.*?$', 'gm'), ...)` of
`removeCommentsFromContent`: `none` scans for the next occurrence of the
prefix; `some k` is inside a match, with `k` prefix characters still to
discard before skipping the lazy `.*?$` part, which runs to the next line
terminator (kept, since `$` is zero-width). -/
def lcpGo (pfx : List Char) : Option Nat → List Char → List Char × Nat
  | _, [] => ([], 0)
  | some (k + 1), _ :: t => lcpGo pfx (some k) t
  | some 0, c :: t =>
    if jsLineTerm c then
      let r := lcpGo pfx none t
      (c :: r.1, r.2)
    else lcpGo pfx (some 0) t
  | none, c :: t =>
    if pfx.isPrefixOf (c :: t) then
      let r := lcpGo pfx (some (pfx.length - 1)) t
      (r.1, r.2 + 1)
    else
      let r := lcpGo pfx none t
      (c :: r.1, r.2)

/-- The line-comment pass: each global-regex match runs from an occurrence of
the escaped prefix through the lazy `.*?` (which cannot cross a line
terminator) to the multiline `$`; the match is replaced by the empty string
and the count incremented.  The registry's line prefixes are non-empty and
free of line terminators, which the streaming scanner relies on; an empty
prefix (never produced by `getCommentStyle`) is mapped to the identity. -/
def lineCommentPass (pfx cs : List Char) : List Char × Nat :=
  if pfx.isEmpty then (cs, 0) else lcpGo pfx none cs

/-- State of the streaming scanner embedding the block-comment pass
`content.replace(new RegExp(escPrefix + '[\s\S]*?' + escSuffix, 'g'), ...)`:
`scan` looks for the next occurrence of the opening delimiter; `opening k p`
is discarding the `k` remaining opener characters; `body p` is inside the lazy
`[\s\S]*?`, looking for the earliest occurrence of the closing delimiter;
`closing k` is discarding the `k` remaining closer characters.  `p` holds the
characters consumed since the match began (in reverse) so that an opener with
no later closer — which the regex never matches — can be restored verbatim. -/
inductive BlockScanState where
  | scan : BlockScanState
  | opening (k : Nat) (pending : List Char) : BlockScanState
  | body (pending : List Char) : BlockScanState
  | closing (k : Nat) : BlockScanState

/-- Streaming scanner for the block-comment pass; see `BlockScanState`. -/
def bcpGo (pfx sfx : List Char) : BlockScanState → List Char → List Char × Nat
  | .scan, [] => ([], 0)
  | .opening _ pending, [] => (pending.reverse, 0)
  | .body pending, [] => (pending.reverse, 0)
  | .closing _, [] => ([], 0)
  | .scan, c :: t =>
    if pfx.isPrefixOf (c :: t) then
      if pfx.length ≤ 1 then bcpGo pfx sfx (.body [c]) t
      else bcpGo pfx sfx (.opening (pfx.length - 1) [c]) t
    else
      let r := bcpGo pfx sfx .scan t
      (c :: r.1, r.2)
  | .opening k pending, c :: t =>
    if k ≤ 1 then bcpGo pfx sfx (.body (c :: pending)) t
    else bcpGo pfx sfx (.opening (k - 1) (c :: pending)) t
  | .body pending, c :: t =>
    if sfx.isPrefixOf (c :: t) then
      if sfx.length ≤ 1 then
        let r := bcpGo pfx sfx .scan t
        (r.1, r.2 + 1)
      else
        let r := bcpGo pfx sfx (.closing (sfx.length - 1)) t
        (r.1, r.2 + 1)
    else bcpGo pfx sfx (.body (c :: pending)) t
  | .closing k, _ :: t =>
    if k ≤ 1 then bcpGo pfx sfx .scan t
    else bcpGo pfx sfx (.closing (k - 1)) t

/-- The block-comment pass: each match runs from an occurrence of the opening
delimiter through the lazy `[\s\S]*?` to the earliest later occurrence of
the closing delimiter.  Both delimiters in the registry (and in the extra
JS/TS pass) are non-empty; empty delimiters are mapped to the identity. -/
def blockCommentPass (pfx sfx cs : List Char) : List Char × Nat :=
  if pfx.isEmpty || sfx.isEmpty then (cs, 0) else bcpGo pfx sfx .scan cs

/-- No JS block-comment match: wherever an opening `/*` occurs, no closing
`*/` occurs with its start at least two characters later.  This is exactly the
condition under which the `/\*[\s\S]*?\*\//g` pass matches nothing. -/
def NoBlockMatch (s : List Char) : Prop :=
  ∀ u v : List Char, s = u ++ '/' :: '*' :: v → ¬ ['*', '/'] <:+: v

/-- Count of newline characters. -/
def countNL (cs : List Char) : Nat := countChar '\n' cs

/-- Rewrites one maximal whitespace run for the blank-line collapse
`newContent.replace(/\n\s*\n\s*\n/g, '\n\n')`.  A match of that regex
must start at a `\n` and lies entirely inside one maximal `\s` run, so a run
matches iff it contains at least three newlines; the leftmost match starts at
the run's first newline, and greedy backtracking (first `\s*` longest, then
the second) extends it to the run's last newline.  The replacement therefore
keeps the run's leading segment before its first newline, rewrites first
through last newline to exactly two, and keeps the trailing newline-free
segment; runs with at most two newlines are untouched, and no two matches
overlap one run. -/
def collapseRun (run : List Char) : List Char :=
  if 3 ≤ countNL run then
    run.takeWhile (· ≠ '\n') ++ '\n' :: '\n' :: (run.reverse.takeWhile (· ≠ '\n')).reverse
  else run

/-- Streaming form of the blank-line collapse: accumulate the current maximal
whitespace run (reversed) and flush it through `collapseRun` at each non-`\s`
character and at the end of input. -/
def collapseGo (pending : List Char) : List Char → List Char
  | [] => collapseRun pending.reverse
  | c :: t =>
    if jsWhitespace c then collapseGo (c :: pending) t
    else collapseRun pending.reverse ++ c :: collapseGo [] t

/-- The blank-line collapse `newContent.replace(/\n\s*\n\s*\n/g, '\n\n')`
of `removeCommentsFromContent`. -/
def collapseBlankRuns (cs : List Char) : List Char := collapseGo [] cs

/-- `removeCommentsFromContent` of `src/unnamed/part_001` (lines 1072-1115):
block pass when the style has a suffix, else line pass; an extra `/*...*/`
block pass for the four JS/TS dialects; then the blank-line collapse.  Returns
the new content and the number of removed comments. -/
def removeCommentsFromContent (content extension pfx sfx : String) : String × Nat :=
  let cs := content.toList
  let first :=
    if sfx ≠ "" then blockCommentPass pfx.toList sfx.toList cs
    else lineCommentPass pfx.toList cs
  let second :=
    if extension = ".js" || extension = ".jsx" || extension = ".ts" || extension = ".tsx" then
      blockCommentPass "/*".toList "*/".toList first.1
    else (first.1, 0)
  (String.mk (collapseBlankRuns second.1), first.2 + second.2)

/-- Abstract syntax of the JS regular expressions this program uses:
literal characters, character classes, concatenation, prioritized alternation,
greedy and lazy star, and numbered capture groups.  Anchors are handled at the
call sites (`^`-anchored patterns are matched at position 0 only). -/
inductive Rx where
  | eps : Rx
  | chr (c : Char) : Rx
  | cls (p : Char → Bool) : Rx
  | seq (a b : Rx) : Rx
  | alt (a b : Rx) : Rx
  | starG (r : Rx) : Rx
  | starL (r : Rx) : Rx
  | grp (n : Nat) (r : Rx) : Rx

/-- Capture environment: group number to captured characters, most recent
assignment first (as JS overwrites a group on repetition). -/
abbrev RxCaps := List (Nat × List Char)

/-- Greedy-star unfolding: up to `fuel` iterations of the element matcher
`m`, each consuming at least one character (the ECMAScript empty-repetition
rule), preferring more iterations; the zero-iteration result comes last. -/
def starGoG (m : List Char → RxCaps → List (List Char × RxCaps)) :
    Nat → List Char → RxCaps → List (List Char × RxCaps)
  | 0, s, caps => [(s, caps)]
  | fuel + 1, s, caps =>
    ((m s caps).flatMap
      (fun r' => if r'.1.length < s.length then starGoG m fuel r'.1 r'.2 else [])) ++
    [(s, caps)]

/-- Lazy-star unfolding: as `starGoG` but preferring fewer iterations. -/
def starGoL (m : List Char → RxCaps → List (List Char × RxCaps)) :
    Nat → List Char → RxCaps → List (List Char × RxCaps)
  | 0, s, caps => [(s, caps)]
  | fuel + 1, s, caps =>
    (s, caps) :: ((m s caps).flatMap
      (fun r' => if r'.1.length < s.length then starGoL m fuel r'.1 r'.2 else []))

/-- Prioritized backtracking matcher: all ways a regex can match a prefix of
`s`, as `(remaining suffix, captures)` pairs in the engine's preference order
(alternation prefers its left branch, greedy star prefers more iterations,
lazy star fewer).  `fuel` bounds star unfolding and is sufficient whenever it
exceeds the length of `s`. -/
def rxMatchC (fuel : Nat) : Rx → List Char → RxCaps → List (List Char × RxCaps)
  | .eps, s, caps => [(s, caps)]
  | .chr c, s, caps =>
    match s with
    | [] => []
    | x :: t => if x = c then [(t, caps)] else []
  | .cls p, s, caps =>
    match s with
    | [] => []
    | x :: t => if p x then [(t, caps)] else []
  | .seq a b, s, caps => (rxMatchC fuel a s caps).flatMap (fun r => rxMatchC fuel b r.1 r.2)
  | .alt a b, s, caps => rxMatchC fuel a s caps ++ rxMatchC fuel b s caps
  | .grp n r, s, caps =>
    (rxMatchC fuel r s caps).map (fun r' => (r'.1, (n, s.take (s.length - r'.1.length)) :: r'.2))
  | .starG r, s, caps => starGoG (rxMatchC fuel r) fuel s caps
  | .starL r, s, caps => starGoL (rxMatchC fuel r) fuel s caps

/-- JS `regex.test(line)` for a `^`-anchored pattern: does any match exist at
position 0? -/
def rxTestAt (r : Rx) (s : List Char) : Bool := !(rxMatchC (s.length + 1) r s []).isEmpty

/-- JS `string.match(regex)` without the `g` flag: scan start positions left
to right and return the captures of the first (leftmost, highest-priority)
match, if any. -/
def rxSearch (r : Rx) (s : List Char) : Option RxCaps :=
  match rxMatchC (s.length + 1) r s [] with
  | res :: _ => some res.2
  | [] =>
    match s with
    | [] => none
    | _ :: t => rxSearch r t

/-- Literal string regex. -/
def rxStr (s : String) : Rx := s.toList.foldr (fun c acc => .seq (.chr c) acc) .eps

/-- Case-insensitive literal string regex (the `i` flag on ASCII letters). -/
def rxStrCI (s : String) : Rx :=
  s.toList.foldr (fun c acc => .seq (.cls (fun x => x.toLower = c.toLower)) acc) .eps

/-- Greedy `?`. -/
def rxOpt (r : Rx) : Rx := .alt r .eps

/-- The JS `\w` class: ASCII letters, digits and underscore. -/
def isWordChar (c : Char) : Bool := c.isAlpha || c.isDigit || c = '_'

/-- `\s*`. -/
def rxWSStar : Rx := .starG (.cls jsWhitespace)

/-- `\s+`. -/
def rxWSPlus : Rx := .seq (.cls jsWhitespace) rxWSStar

/-- `\w+`. -/
def rxWord : Rx := .seq (.cls isWordChar) (.starG (.cls isWordChar))

/-- The `.js`/`.ts` trigger of `extractCodeSnippets` (`src/src/analyzer.ts`,
line 126): `^\s*(async\s+)?(function\s+\w+|const\s+\w+\s*=\s*(async\s+)?function|class\s+\w+|\w+\s*:\s*(async\s+)?function)`.
Capture groups do not affect `.test` and are omitted. -/
def jsTrigger : Rx :=
  .seq rxWSStar (.seq (rxOpt (.seq (rxStr "async") rxWSPlus))
    (.alt (.seq (rxStr "function") (.seq rxWSPlus rxWord))
    (.alt (.seq (rxStr "const")
            (.seq rxWSPlus (.seq rxWord (.seq rxWSStar (.seq (.chr '=')
              (.seq rxWSStar (.seq (rxOpt (.seq (rxStr "async") rxWSPlus))
                (rxStr "function"))))))))
    (.alt (.seq (rxStr "class") (.seq rxWSPlus rxWord))
          (.seq rxWord (.seq rxWSStar (.seq (.chr ':')
            (.seq rxWSStar (.seq (rxOpt (.seq (rxStr "async") rxWSPlus))
              (rxStr "function"))))))))))

/-- The `.py` (and identical `.rb`) trigger: `^\s*(def\s+\w+|class\s+\w+)`. -/
def pyTrigger : Rx :=
  .seq rxWSStar (.alt (.seq (rxStr "def") (.seq rxWSPlus rxWord))
                      (.seq (rxStr "class") (.seq rxWSPlus rxWord)))

/-- The `.java` trigger:
`^\s*(public|private|protected)?\s*(static)?\s*(\w+)\s+\w+\s*\([^)]*\)\s*\{`. -/
def javaTrigger : Rx :=
  .seq rxWSStar (.seq (rxOpt (.alt (rxStr "public") (.alt (rxStr "private") (rxStr "protected"))))
    (.seq rxWSStar (.seq (rxOpt (rxStr "static")) (.seq rxWSStar (.seq rxWord
      (.seq rxWSPlus (.seq rxWord (.seq rxWSStar (.seq (.chr '(')
        (.seq (.starG (.cls (· ≠ ')'))) (.seq (.chr ')')
          (.seq rxWSStar (.chr openBrace)))))))))))))

/-- The `.go` trigger: `^\s*func\s+\w+`. -/
def goTrigger : Rx := .seq rxWSStar (.seq (rxStr "func") (.seq rxWSPlus rxWord))

/-- The `.php` trigger: `^\s*(function\s+\w+|class\s+\w+)`. -/
def phpTrigger : Rx :=
  .seq rxWSStar (.alt (.seq (rxStr "function") (.seq rxWSPlus rxWord))
                      (.seq (rxStr "class") (.seq rxWSPlus rxWord)))

/-- `patterns[extension] || patterns['.js']` of `extractCodeSnippets`. -/
def extractTriggerFor (extension : String) : Rx :=
  if extension = ".js" then jsTrigger
  else if extension = ".ts" then jsTrigger
  else if extension = ".py" then pyTrigger
  else if extension = ".java" then javaTrigger
  else if extension = ".go" then goTrigger
  else if extension = ".rb" then pyTrigger
  else if extension = ".php" then phpTrigger
  else jsTrigger

/-- `interface CodeSnippet` of `src/src/analyzer.ts`. -/
structure CodeSnippet where
  code : String
  lineNumber : Nat
deriving DecidableEq

/-- `(line.match(/{/g) || []).length - (line.match(/}/g) || []).length`. -/
def braceDelta (line : String) : Int :=
  (countChar openBrace line.toList : Int) - (countChar closeBrace line.toList : Int)

/-- The scanning loop of `extractCodeSnippets` (`src/src/analyzer.ts`, lines
139-168), with state `(inSnippet, snippetStart, bracketCount, currentSnippet)`
and `i` the 0-based index of `line`.  A trigger line opens a unit; inside a
unit each line is appended and the unit closes for `.py`/`.rb` when the next
line exists and starts with neither a space nor a tab, and for bracket
languages when the cumulative brace balance reaches `≤ 0`; a unit still open
at end of input is dropped. -/
def extractGo (extension : String) (pattern : Rx) :
    Nat → List String → Bool → Nat → Int → String → List CodeSnippet
  | _, [], _, _, _, _ => []
  | i, line :: rest, inSnippet, snippetStart, bracketCount, currentSnippet =>
    if !inSnippet && rxTestAt pattern line.toList then
      extractGo extension pattern (i + 1) rest true (i + 1) (braceDelta line) line
    else if inSnippet then
      let cur := currentSnippet ++ "\n" ++ line
      let bc := bracketCount + braceDelta line
      if extension = ".py" || extension = ".rb" then
        match rest with
        | next :: _ =>
          if !(strStartsWith next " ") && !(strStartsWith next "\t") then
            { code := cur, lineNumber := snippetStart } ::
              extractGo extension pattern (i + 1) rest false snippetStart bc cur
          else extractGo extension pattern (i + 1) rest true snippetStart bc cur
        | [] => extractGo extension pattern (i + 1) rest true snippetStart bc cur
      else if bc ≤ 0 then
        { code := cur, lineNumber := snippetStart } ::
          extractGo extension pattern (i + 1) rest false snippetStart bc cur
      else extractGo extension pattern (i + 1) rest true snippetStart bc cur
    else
      extractGo extension pattern (i + 1) rest false snippetStart bracketCount currentSnippet

/-- `extractCodeSnippets` of `src/src/analyzer.ts` (lines 119-171). -/
def extractCodeSnippets (fileContent filePath : String) : List CodeSnippet :=
  let extension := lowerStr (extnameOf filePath)
  let lines := splitNL fileContent
  extractGo extension (extractTriggerFor extension) 0 lines false 0 0 ""

/-- The name-extraction regex of `generateDefaultComment`:
`/(?:function|class|const|let|var)\s+(\w+)|(?:\w+)\s*=\s*(?:async\s*)?(?:function|\()/i`.
Only the first alternative has a capture group. -/
def fnNameRx : Rx :=
  .alt (.seq (.alt (rxStrCI "function") (.alt (rxStrCI "class")
          (.alt (rxStrCI "const") (.alt (rxStrCI "let") (rxStrCI "var")))))
        (.seq rxWSPlus (.grp 1 rxWord)))
       (.seq rxWord (.seq rxWSStar (.seq (.chr '=') (.seq rxWSStar
         (.seq (rxOpt (.seq (rxStrCI "async") rxWSStar))
               (.alt (rxStrCI "function") (.chr '(')))))))

/-- The method-name regex of `generateDefaultComment`: `/(\w+)\s*\(/i`. -/
def methodNameRx : Rx := .seq (.grp 1 rxWord) (.seq rxWSStar (.chr '('))

/-- The parameter-list regex of `generateDefaultComment`: `/\(([^)]*?)\)/`. -/
def paramsRx : Rx :=
  .seq (.chr '(') (.seq (.grp 1 (.starL (.cls (· ≠ ')')))) (.chr ')'))

/-- `generateDefaultComment` of `src/src/analyzer.ts` (lines 237-292): the
deterministic template used when the backend reply is unusable.  The
`extension` parameter is accepted and unused, as in the source. -/
def generateDefaultComment (codeSnippet _extension : String) : String :=
  let firstLine := jsTrim ((splitNL codeSnippet).headD "")
  let nameFromMethod : String :=
    match rxSearch methodNameRx firstLine.toList with
    | some caps =>
      match caps.lookup 1 with
      | some nm => if nm.isEmpty then "function" else String.mk nm
      | none => "function"
    | none => "function"
  let name : String :=
    match rxSearch fnNameRx firstLine.toList with
    | some caps =>
      match caps.lookup 1 with
      | some nm => if nm.isEmpty then nameFromMethod else String.mk nm
      | none => nameFromMethod
    | none => nameFromMethod
  let params : String :=
    match rxSearch paramsRx firstLine.toList with
    | some caps =>
      match caps.lookup 1 with
      | some ps => if ps.isEmpty then "" else jsTrim (String.mk ps)
      | none => ""
    | none => ""
  let isAsync := includesStr firstLine "async" || includesStr codeSnippet "return new Promise"
  let returnType := if isAsync then "Promise" else ""
  if includesStr firstLine "class" then
    "/**\n * " ++ name ++ " class\n */"
  else
    let base := "/**\n * " ++ name ++ " " ++
      (if returnType ≠ "" then "- Asynchronously " else "") ++
      "handles " ++ lowerStr name ++ " operation\n"
    let withParams :=
      if params ≠ "" then
        base ++ String.join ((splitOnChar ',' params.toList).map (fun param =>
          let paramName := jsTrim (String.mk
            ((splitOnChar '=' ((splitOnChar ':' (jsTrimChars param)).headD [])).headD []))
          if paramName ≠ "" && !(includesStr paramName "...") then
            " * @param " ++ paramName ++ " Parameter description\n"
          else ""))
      else base
    let withRet :=
      if returnType ≠ "" then
        withParams ++ " * @returns \x7b" ++ returnType ++
          "\x7d Promise that resolves when the operation completes\n"
      else withParams
    withRet ++ " */"

/-- The reply-quality fallback of `analyzeCode` (`src/src/analyzer.ts`, lines
82-94): the backend reply is trimmed, and replaced by the deterministic
template when it is empty or shorter than 5 characters. -/
def chooseSuggestedComment (aiReply codeSnippet extension : String) : String :=
  let t := jsTrim aiReply
  if t = "" ∨ t.length < 5 then generateDefaultComment codeSnippet extension else t

/-- Parsed JSON values, as produced by `JSON.parse`. -/
inductive Json where
  | jnull : Json
  | jbool (b : Bool) : Json
  | jnum (n : Int) : Json
  | jstr (s : String) : Json
  | jarr (xs : List Json) : Json
  | jobj (fields : List (String × Json)) : Json

/-- The pure document transformation of `saveSuggestions`
(`src/unnamed/part_001`, lines 507-555), with the file I/O factored out.
`fileState` is `none` when `komments.json` does not exist, `some none` when it
exists but `JSON.parse` (or the read) throws, and `some (some v)` when it
parses to `v`.  The source then takes `generations` to be `v` itself when `v`
is an array; only when `v` is **not** an array does it build the single
synthetic generation with id `"legacy"` — whose `suggestions` field re-parses
the file content and keeps it only if it is an array (mirrored by the inner
match).  Finally the new generation — id `"gen-" + Date.now()`, the current
timestamp, the suggestion batch and the collected codebase info — is pushed
and the document written back. -/
def saveSuggestionsDoc (fileState : Option (Option Json)) (nowMs : Nat)
    (nowIso : String) (suggestions : List Json) (codebaseInfo : Json) : List Json :=
  let generations : List Json :=
    match fileState with
    | none => []
    | some none => []
    | some (some parsed) =>
      match parsed with
      | .jarr xs => xs
      | _ =>
        [Json.jobj [("id", Json.jstr "legacy"), ("timestamp", Json.jstr nowIso),
          ("suggestions", match parsed with | .jarr xs => Json.jarr xs | _ => Json.jarr [])]]
  generations ++
    [Json.jobj [("id", Json.jstr ("gen-" ++ toString nowMs)),
      ("timestamp", Json.jstr nowIso),
      ("suggestions", Json.jarr suggestions),
      ("codebaseInfo", codebaseInfo)]]

mutual
/-- An in-memory directory tree, standing for what `fs.readdirSync(dir,
{ withFileTypes: true })` exposes to `scanCodebase`: regular files and
directories in listing order (other entry kinds are skipped by the source's
`isDirectory`/`isFile` tests and are not modelled).  The entry list is a
mutually defined inductive so the walk below is structurally recursive. -/
inductive FsEntry where
  | file (name : String) : FsEntry
  | dir (name : String) (entries : FsEntries) : FsEntry
inductive FsEntries where
  | nil : FsEntries
  | cons (e : FsEntry) (rest : FsEntries) : FsEntries
end

mutual
/-- The recursive walk of `scanCodebase` (`src/unnamed/part_001`, lines
1121-1165): skip `node_modules` and dot-directories, recurse into other
directories, and keep a file when its lower-cased extension is non-empty and
`Object.keys(getCommentStyle(ext)).length > 0`.  `cur` is the directory path
being scanned; `path.join` is modelled as `/`-concatenation. -/
def scanCodebaseEntry (cur : String) : FsEntry → List String
  | .file name =>
    let ext := lowerStr (extnameOf name)
    if ext ≠ "" ∧ 0 < (commentStyleKeys (getCommentStyle ext)).length then
      [cur ++ "/" ++ name]
    else []
  | .dir name entries =>
    if name = "node_modules" ∨ strStartsWith name "." then []
    else scanCodebaseGo (cur ++ "/" ++ name) entries
def scanCodebaseGo (cur : String) : FsEntries → List String
  | .nil => []
  | .cons e rest => scanCodebaseEntry cur e ++ scanCodebaseGo cur rest
end

/-- `scanCodebase` on an in-memory tree rooted at the working directory. -/
def scanCodebase (cwd : String) (entries : FsEntries) : List String :=
  scanCodebaseGo cwd entries

mutual
/-- The same walk with only the non-empty-extension file test, following the
claim's words ("includes every regular file with any non-empty extension
outside node_modules and hidden directories"). -/
def scanNonemptyExtEntry (cur : String) : FsEntry → List String
  | .file name =>
    if lowerStr (extnameOf name) ≠ "" then [cur ++ "/" ++ name] else []
  | .dir name entries =>
    if name = "node_modules" ∨ strStartsWith name "." then []
    else scanNonemptyExtGo (cur ++ "/" ++ name) entries
def scanNonemptyExtGo (cur : String) : FsEntries → List String
  | .nil => []
  | .cons e rest => scanNonemptyExtEntry cur e ++ scanNonemptyExtGo cur rest
end

/-- A concrete old-format suggestion object (no `suggestions` field), used to
evaluate `saveSuggestionsDoc` on a legacy flat-array document. -/
def legacySugg (f : String) : Json :=
  Json.jobj [("file", Json.jstr f), ("line", Json.jnum 1),
    ("codeSnippet", Json.jstr "s"), ("suggestedComment", Json.jstr "c")]

end Komments

namespace Komments

theorem containsSeq_eq_false_iff (pat : List Char) (s : List Char) :
    containsSeq pat s = false ↔ ¬ pat <:+: s := by
  induction s with
  | nil =>
    cases pat <;> simp [containsSeq, List.infix_nil]
  | cons c t ih =>
    simp only [containsSeq, Bool.or_eq_false_iff, List.infix_cons_iff, ih]
    constructor
    · rintro ⟨h1, h2⟩ (hp | hi)
      · rw [← List.isPrefixOf_iff_prefix] at hp
        simp [hp] at h1
      · exact h2 hi
    · intro h
      refine ⟨?_, fun hi => h (Or.inr hi)⟩
      by_contra hb
      rw [Bool.not_eq_false, List.isPrefixOf_iff_prefix] at hb
      exact h (Or.inl hb)

end Komments

namespace Komments

/-- Any property holding for the default and every table entry holds for any
lookup result. -/
theorem lookup_getD_prop {β : Type} (P : β → Prop) (dflt : β) (hd : P dflt)
    (l : List (String × β)) (hl : ∀ e ∈ l, P e.2) (key : String) :
    P ((l.lookup key).getD dflt) := by
  induction l with
  | nil => simpa using hd
  | cons e t ih =>
    obtain ⟨a, b⟩ := e
    simp only [List.lookup]
    by_cases h : key == a
    · simpa [h] using hl (a, b) (by simp)
    · simp only [h]
      exact ih (fun e he => hl e (List.mem_cons_of_mem _ he))

/-- Every style in the registry uses one of four line prefixes. -/
theorem getCommentStyle_pfx_cases (extension : String) :
    (getCommentStyle extension).pfx = "//" ∨ (getCommentStyle extension).pfx = "#" ∨
    (getCommentStyle extension).pfx = "<!--" ∨ (getCommentStyle extension).pfx = "/*" := by
  exact lookup_getD_prop
    (fun st => st.pfx = "//" ∨ st.pfx = "#" ∨ st.pfx = "<!--" ∨ st.pfx = "/*")
    ⟨"//", ""⟩ (by simp) commentStylesTable (by decide) (lowerStr extension)

/-- A style with empty suffix has prefix `//` or `#`. -/
theorem getCommentStyle_sfx_empty_pfx (extension : String)
    (h : (getCommentStyle extension).sfx = "") :
    (getCommentStyle extension).pfx = "//" ∨ (getCommentStyle extension).pfx = "#" := by
  exact lookup_getD_prop
    (fun st => st.sfx = "" → (st.pfx = "//" ∨ st.pfx = "#"))
    ⟨"//", ""⟩ (by simp) commentStylesTable (by decide) (lowerStr extension) h

/-- A style with non-empty suffix only arises for `.html` or `.css` keys, so
the extension is none of the four JS/TS dialect names. -/
theorem getCommentStyle_sfx_ne_not_js (extension : String)
    (h : (getCommentStyle extension).sfx ≠ "") :
    extension ≠ ".js" ∧ extension ≠ ".jsx" ∧ extension ≠ ".ts" ∧ extension ≠ ".tsx" := by
  refine ⟨?_, ?_, ?_, ?_⟩ <;> rintro rfl <;> exact h (by decide)


/-- C1: on a history document that parses as a bare flat array of three
suggestion objects (each lacking a `suggestions` field), `saveSuggestions`
does not build the synthetic `"legacy"` generation: the flat array itself is
taken as the generation list and the new generation is pushed after it, so
the written document has four elements, the first being the untouched first
suggestion object — not the claimed two-generation document headed by a
`"legacy"` generation.  (The source only wraps when the parsed value is not
an array, and inside that branch the re-parse ternary can never produce the
suggestions, so the flat-array upgrade its own comment describes is
unreachable.) -/
theorem C1_flat_array_not_wrapped :
    saveSuggestionsDoc
        (some (some (Json.jarr [legacySugg "a.js", legacySugg "b.js", legacySugg "c.js"])))
        1700000000000 "2023-11-14T22:13:20.000Z" [legacySugg "d.js"] (Json.jobj []) =
      [legacySugg "a.js", legacySugg "b.js", legacySugg "c.js",
       Json.jobj [("id", Json.jstr "gen-1700000000000"),
         ("timestamp", Json.jstr "2023-11-14T22:13:20.000Z"),
         ("suggestions", Json.jarr [legacySugg "d.js"]),
         ("codebaseInfo", Json.jobj [])]] ∧
    (saveSuggestionsDoc
        (some (some (Json.jarr [legacySugg "a.js", legacySugg "b.js", legacySugg "c.js"])))
        1700000000000 "2023-11-14T22:13:20.000Z" [legacySugg "d.js"] (Json.jobj [])).length = 4 :=
  ⟨rfl, rfl⟩

/-- C2 counterexample: on a one-line `.js` file whose single line matches the
trigger and balances its braces, `extractCodeSnippets` does not return the
claimed single one-line unit — the unit is still open at end of input and is
dropped, so the result is empty. -/
theorem C2_counterexample :
    ¬ (extractCodeSnippets "function f() \x7b\x7d" "a.js" =
        [{ code := "function f() \x7b\x7d", lineNumber := 1 }]) := by
  decide

/-- C2 amended: a trigger line whose braces balance on the same line does not
close its unit on that line; the balance is only examined after a subsequent
line has been appended.  So `function f() {}` alone yields no unit, and
`function f() {}` followed by one more line yields exactly one unit starting
at line 1 whose text is the trigger line plus that following line. -/
theorem C2_amended :
    extractCodeSnippets "function f() \x7b\x7d" "a.js" = [] ∧
    extractCodeSnippets "function f() \x7b\x7d\nx;" "a.js" =
      [{ code := "function f() \x7b\x7d\nx;", lineNumber := 1 }] :=
  ⟨rfl, rfl⟩

/-- C6: on a `.js` file holding one `/* old */` block comment and one
`// trailing` line comment, `removeCommentsFromContent` with the registry's
`.js` line style removes both spans (the line pass takes the line comment,
the extra JS/TS block pass takes the block comment) and reports a count
of 2. -/
theorem C6_js_removes_block_and_line :
    removeCommentsFromContent "/* old */\nconst a = 1; // trailing\n" ".js"
        (getCommentStyle ".js").pfx (getCommentStyle ".js").sfx =
      ("\nconst a = 1; \n", 2) ∧
    includesStr "\nconst a = 1; \n" "/* old */" = false ∧
    includesStr "\nconst a = 1; \n" "// trailing" = false :=
  ⟨rfl, rfl, rfl⟩

/-- C7: whenever the trimmed backend reply is shorter than 5 characters,
`analyzeCode` falls back to `generateDefaultComment`, and on the snippet
`def add(a, b):` + indented body of a `.py` file that deterministic template
contains an `@param a` line and an `@param b` line and no `@returns` line
(the snippet is not asynchronous). -/
theorem C7_py_fallback_template (aiReply : String)
    (h : (jsTrim aiReply).length < 5) :
    includesStr (chooseSuggestedComment aiReply "def add(a, b):\n    return a + b" ".py")
        "@param a" = true ∧
    includesStr (chooseSuggestedComment aiReply "def add(a, b):\n    return a + b" ".py")
        "@param b" = true ∧
    includesStr (chooseSuggestedComment aiReply "def add(a, b):\n    return a + b" ".py")
        "@returns" = false := by
  have hc : chooseSuggestedComment aiReply "def add(a, b):\n    return a + b" ".py" =
      generateDefaultComment "def add(a, b):\n    return a + b" ".py" := by
    unfold chooseSuggestedComment
    rw [if_pos (Or.inr h)]
  rw [hc]
  refine ⟨rfl, rfl, rfl⟩

/-- Witness for C7 at the empty backend reply. -/
theorem C7_py_fallback_template_witness :
    (jsTrim "").length < 5 ∧
    (includesStr (chooseSuggestedComment "" "def add(a, b):\n    return a + b" ".py")
        "@param a" = true ∧
     includesStr (chooseSuggestedComment "" "def add(a, b):\n    return a + b" ".py")
        "@param b" = true ∧
     includesStr (chooseSuggestedComment "" "def add(a, b):\n    return a + b" ".py")
        "@returns" = false) :=
  ⟨by decide, C7_py_fallback_template "" (by decide)⟩

/-- C8: for an in-range line number, `applyCommentToFile` rewrites the file
as exactly the original line sequence with the formatted comment spliced in
immediately before 0-based index `lineNumber - 1`; the take/drop identity
records that every original line is preserved unchanged and in order. -/
theorem C8_insert_splices_before_line (filePath content comment : String) (lineNumber : Nat)
    (h1 : 1 ≤ lineNumber) (h2 : lineNumber ≤ (splitNL content).length) :
    applyCommentToFile filePath content lineNumber comment =
      joinNL ((splitNL content).take (lineNumber - 1) ++
        formatComment (lowerStr (extnameOf filePath)) comment ::
          (splitNL content).drop (lineNumber - 1)) ∧
    (splitNL content).take (lineNumber - 1) ++ (splitNL content).drop (lineNumber - 1) =
      splitNL content := by
  constructor
  · have hm : min (lineNumber - 1) (splitNL content).length = lineNumber - 1 := by omega
    simp only [applyCommentToFile, spliceInsert, hm]
  · exact List.take_append_drop _ _

/-- Witness for C8: inserting at line 2 of a three-line file. -/
theorem C8_insert_splices_before_line_witness :
    (1 ≤ 2 ∧ 2 ≤ (splitNL "l1\nl2\nl3").length) ∧
    (applyCommentToFile "a.js" "l1\nl2\nl3" 2 "note" =
      joinNL ((splitNL "l1\nl2\nl3").take 1 ++
        formatComment (lowerStr (extnameOf "a.js")) "note" :: (splitNL "l1\nl2\nl3").drop 1) ∧
     (splitNL "l1\nl2\nl3").take 1 ++ (splitNL "l1\nl2\nl3").drop 1 = splitNL "l1\nl2\nl3") :=
  ⟨⟨by decide, by decide⟩,
    C8_insert_splices_before_line "a.js" "l1\nl2\nl3" "note" 2 (by decide) (by decide)⟩

/-- C10: for a line number strictly beyond the number of lines plus one, the
splice index is clamped to the array length, so `applyCommentToFile` appends
the formatted comment as the last line and keeps every original line. -/
theorem C10_out_of_range_appends (filePath content comment : String) (lineNumber : Nat)
    (h : (splitNL content).length + 1 < lineNumber) :
    applyCommentToFile filePath content lineNumber comment =
      joinNL (splitNL content ++ [formatComment (lowerStr (extnameOf filePath)) comment]) := by
  have hm : min (lineNumber - 1) (splitNL content).length = (splitNL content).length := by omega
  simp only [applyCommentToFile, spliceInsert, hm]
  simp

/-- Witness for C10: line number 5 on a two-line file appends. -/
theorem C10_out_of_range_appends_witness :
    ((splitNL "a\nb").length + 1 < 5) ∧
    applyCommentToFile "x.py" "a\nb" 5 "note" =
      joinNL (splitNL "a\nb" ++ [formatComment (lowerStr (extnameOf "x.py")) "note"]) :=
  ⟨by decide, C10_out_of_range_appends "x.py" "a\nb" "note" 5 (by decide)⟩

mutual
/-- The walk of `scanCodebase` equals the walk filtered only by a non-empty
extension: the style-table guard never rejects a file. -/
theorem scanCodebaseEntry_eq_nonemptyExt (cur : String) :
    ∀ e : FsEntry, scanCodebaseEntry cur e = scanNonemptyExtEntry cur e
  | .file name => by
    simp only [scanCodebaseEntry, scanNonemptyExtEntry, commentStyleKeys,
      List.length_cons, List.length_nil]
    by_cases h : lowerStr (extnameOf name) ≠ "" <;> simp [h]
  | .dir name entries => by
    simp only [scanCodebaseEntry, scanNonemptyExtEntry]
    by_cases h : name = "node_modules" ∨ strStartsWith name "." <;>
      simp [h, scanCodebaseGo_eq_nonemptyExt (cur ++ "/" ++ name) entries]
theorem scanCodebaseGo_eq_nonemptyExt (cur : String) :
    ∀ es : FsEntries, scanCodebaseGo cur es = scanNonemptyExtGo cur es
  | .nil => rfl
  | .cons e rest => by
    simp only [scanCodebaseGo, scanNonemptyExtGo,
      scanCodebaseEntry_eq_nonemptyExt cur e, scanCodebaseGo_eq_nonemptyExt cur rest]
end

/-- C9: the extension filter of `scanCodebase` is vacuous.  `getCommentStyle`
always returns a two-key object, so `Object.keys(...).length > 0` always
holds and the walk keeps every regular file with a non-empty extension
outside `node_modules` and dot-directories — e.g. `.json` and `.md` files,
not only known source languages. -/
theorem C9_extension_filter_vacuous :
    (∀ ext : String, 0 < (commentStyleKeys (getCommentStyle ext)).length) ∧
    (∀ (cwd : String) (entries : FsEntries),
        scanCodebase cwd entries = scanNonemptyExtGo cwd entries) ∧
    scanCodebase "." (.cons (.file "notes.md") (.cons (.file "data.json")
        (.cons (.file "noext") (.cons (.dir "node_modules" (.cons (.file "dep.js") .nil))
          (.cons (.dir "src" (.cons (.file "a.ts") .nil)) .nil))))) =
      ["./notes.md", "./data.json", "./src/a.ts"] := by
  refine ⟨fun ext => by simp [commentStyleKeys], fun cwd entries => ?_, by rfl⟩
  exact scanCodebaseGo_eq_nonemptyExt cwd entries

/-- C4 counterexample: a block-style (non-empty suffix) format does not
collapse embedded newlines to spaces — the body is interpolated verbatim. -/
theorem C4_counterexample :
    formatComment ".css" "a\nb" ≠ "/* a b */" ∧
    formatComment ".css" "a\nb" = "/* a\nb */" := by
  refine ⟨by decide, rfl⟩

/-- C4 amended: for every style with a non-empty suffix the formatted comment
is exactly `prefix ⬝ space ⬝ body ⬝ space ⬝ suffix`, with the body (embedded
newlines included) preserved verbatim. -/
theorem C4_block_wrap_verbatim (extension comment : String)
    (h : (getCommentStyle extension).sfx ≠ "") :
    formatComment extension comment =
      (getCommentStyle extension).pfx ++ " " ++ comment ++ " " ++
        (getCommentStyle extension).sfx := by
  obtain ⟨h1, h2, h3, h4⟩ := getCommentStyle_sfx_ne_not_js extension h
  have hdoc : isJSDocComment extension comment = false := by
    unfold isJSDocComment
    simp [h1, h2, h3, h4]
  unfold formatComment
  rw [hdoc]
  simp only [Bool.false_eq_true, if_false, if_pos h]

/-- Witness for C4 at the `.css` style. -/
theorem C4_block_wrap_verbatim_witness :
    (getCommentStyle ".css").sfx ≠ "" ∧
    formatComment ".css" "hello" =
      (getCommentStyle ".css").pfx ++ " " ++ "hello" ++ " " ++ (getCommentStyle ".css").sfx :=
  ⟨by decide, C4_block_wrap_verbatim ".css" "hello" (by decide)⟩

/-- C5 counterexample: for the `.js` line-comment style (empty suffix) and
the newline-free body `@param x`, the JSDoc branch rebuilds the comment as a
multi-line block, so the formatted comment does contain embedded newlines. -/
theorem C5_counterexample :
    (getCommentStyle ".js").sfx = "" ∧
    includesStr "@param x" "\n" = false ∧
    includesStr (formatComment ".js" "@param x") "\n" = true := by
  refine ⟨rfl, by decide, by decide⟩

/-- Searching for a single character is containment of that character. -/
theorem containsSeq_singleton (c : Char) (l : List Char) :
    containsSeq [c] l = l.contains c := by
  induction l with
  | nil => rfl
  | cons a t ih =>
    simp only [containsSeq, ih, List.contains_cons]
    cases h : c == a <;> cases h2 : a == c <;>
      simp_all [List.isPrefixOf, beq_iff_eq]

/-- C5 amended: for a line-comment (empty-suffix) style and a newline-free
body, the formatted comment has no embedded newline, provided the body does
not trigger the JSDoc re-wrapping branch (JS/TS dialect plus doc markers). -/
theorem C5_line_style_no_newline (extension comment : String)
    (hs : (getCommentStyle extension).sfx = "")
    (hd : isJSDocComment extension comment = false)
    (hn : includesStr comment "\n" = false) :
    includesStr (formatComment extension comment) "\n" = false := by
  have hfc : formatComment extension comment =
      (getCommentStyle extension).pfx ++ " " ++ comment := by
    unfold formatComment
    rw [hd]
    simp only [Bool.false_eq_true, if_false]
    rw [if_neg (by simp [hs]), if_neg (by simp [hn])]
  rw [hfc]
  unfold includesStr at hn ⊢
  have hsplit : ((getCommentStyle extension).pfx ++ " " ++ comment).toList =
      (getCommentStyle extension).pfx.toList ++ " ".toList ++ comment.toList := by
    simp [String.toList]
  rw [hsplit]
  have h1 : containsSeq "\n".toList comment.toList = false := hn
  rcases getCommentStyle_pfx_cases extension with hp | hp | hp | hp <;>
    rw [hp] <;>
    simp_all [containsSeq_singleton, List.elem_eq_mem, List.mem_append]

/-- Witness for C5 at the `.py` style and a plain one-line body. -/
theorem C5_line_style_no_newline_witness :
    ((getCommentStyle ".py").sfx = "" ∧ isJSDocComment ".py" "hello" = false ∧
      includesStr "hello" "\n" = false) ∧
    includesStr (formatComment ".py" "hello") "\n" = false :=
  ⟨⟨by decide, by decide, by decide⟩,
    C5_line_style_no_newline ".py" "hello" (by decide) (by decide) (by decide)⟩

/-- C3 counterexample: with the `.css` block style, removing the block
comment from `a//*b*/*c*/` splices the remainder into a fresh `/*...*/` span,
so a second application removes another comment: it reports count 1 (not 0)
and changes the content again — `removeCommentsFromContent` is not
idempotent for every content and style. -/
theorem C3_counterexample :
    removeCommentsFromContent "a//*b*/*c*/" ".css"
        (getCommentStyle ".css").pfx (getCommentStyle ".css").sfx = ("a/*c*/", 1) ∧
    removeCommentsFromContent "a/*c*/" ".css"
        (getCommentStyle ".css").pfx (getCommentStyle ".css").sfx = ("a", 1) :=
  ⟨rfl, rfl⟩

/-- The output of the skipping mode of the line-comment scanner is empty or
starts with a line terminator. -/
theorem lcpGo_skip_head (pfx : List Char) :
    ∀ (s : List Char) (k : Nat), (lcpGo pfx (some k) s).1 = [] ∨
      ∃ c r, (lcpGo pfx (some k) s).1 = c :: r ∧ jsLineTerm c = true := by
  intro s
  induction s with
  | nil => intro k; left; cases k <;> rfl
  | cons c t ih =>
    intro k
    match k with
    | k + 1 => simpa only [lcpGo] using ih k
    | 0 =>
      by_cases h : jsLineTerm c = true
      · right
        refine ⟨c, (lcpGo pfx none t).1, ?_, h⟩
        simp [lcpGo, h]
      · simpa only [lcpGo, h, if_false, Bool.false_eq_true] using ih 0

/-- A non-empty, line-terminator-free prefix of the scanning-mode output is a
prefix of the input. -/
theorem lcpGo_none_prefix (pfx : List Char) :
    ∀ (s p : List Char), p ≠ [] → (∀ c ∈ p, jsLineTerm c = false) →
      p <+: (lcpGo pfx none s).1 → p <+: s := by
  intro s
  induction s with
  | nil =>
    intro p hne _ hp
    simp only [lcpGo] at hp
    exact absurd (List.prefix_nil.mp hp) hne
  | cons c t ih =>
    intro p hne hnt hp
    by_cases hm : pfx.isPrefixOf (c :: t) = true
    · simp only [lcpGo, hm, if_pos] at hp
      rcases lcpGo_skip_head pfx t (pfx.length - 1) with h0 | ⟨d, r, heq, hterm⟩
      · rw [h0] at hp
        exact absurd (List.prefix_nil.mp hp) hne
      · rw [heq] at hp
        rcases p with _ | ⟨p0, p'⟩
        · exact absurd rfl hne
        · obtain ⟨hp0, -⟩ := List.cons_prefix_cons.mp hp
          have := hnt p0 (by simp)
          rw [hp0, hterm] at this
          cases this
    · simp only [lcpGo, hm, Bool.false_eq_true, if_false] at hp
      rcases p with _ | ⟨p0, p'⟩
      · exact absurd rfl hne
      obtain ⟨hp0, hp'⟩ := List.cons_prefix_cons.mp hp
      subst hp0
      by_cases hp'e : p' = []
      · subst hp'e
        exact List.cons_prefix_cons.mpr ⟨rfl, List.nil_prefix⟩
      · have := ih p' hp'e (fun a ha => hnt a (by simp [ha])) hp'
        exact List.cons_prefix_cons.mpr ⟨rfl, this⟩

/-- After the line-comment scanner runs, no occurrence of its (non-empty,
terminator-free) prefix remains in the output, in any mode. -/
theorem lcpGo_no_occurrence (pfx : List Char) (hne : pfx ≠ [])
    (hnt : ∀ c ∈ pfx, jsLineTerm c = false) :
    ∀ (s : List Char) (mode : Option Nat), ¬ pfx <:+: (lcpGo pfx mode s).1 := by
  intro s
  induction s with
  | nil =>
    intro mode hinf
    have : (lcpGo pfx mode []).1 = [] := by
      rcases mode with _ | k
      · rfl
      · cases k <;> rfl
    rw [this] at hinf
    exact hne (List.eq_nil_of_infix_nil hinf)
  | cons c t ih =>
    intro mode
    match mode with
    | some (k + 1) => simpa only [lcpGo] using ih (some k)
    | some 0 =>
      by_cases h : jsLineTerm c = true
      · simp only [lcpGo, h, if_pos]
        intro hinf
        rcases List.infix_cons_iff.mp hinf with hpre | htail
        · rcases pfx with _ | ⟨p0, p'⟩
          · exact hne rfl
          · obtain ⟨hp0, -⟩ := List.cons_prefix_cons.mp hpre
            have := hnt p0 (by simp)
            rw [hp0, h] at this
            cases this
        · exact ih none htail
      · simpa only [lcpGo, h, Bool.false_eq_true, if_false] using ih (some 0)
    | none =>
      by_cases hm : pfx.isPrefixOf (c :: t) = true
      · simpa only [lcpGo, hm, if_pos] using ih (some (pfx.length - 1))
      · simp only [lcpGo, hm, Bool.false_eq_true, if_false]
        intro hinf
        rcases List.infix_cons_iff.mp hinf with hpre | htail
        · rcases pfx with _ | ⟨p0, p'⟩
          · exact hne rfl
          obtain ⟨hp0, hp'⟩ := List.cons_prefix_cons.mp hpre
          subst hp0
          by_cases hp'e : p' = []
          · subst hp'e
            exact hm (List.isPrefixOf_iff_prefix.mpr
              (List.cons_prefix_cons.mpr ⟨rfl, List.nil_prefix⟩))
          · have := lcpGo_none_prefix (p0 :: p') t p' hp'e
              (fun a ha => hnt a (by simp [ha])) hp'
            exact hm (List.isPrefixOf_iff_prefix.mpr
              (List.cons_prefix_cons.mpr ⟨rfl, this⟩))
        · exact ih none htail

/-- On input free of the prefix, the line-comment scanner is the identity and
counts nothing. -/
theorem lcpGo_eq_of_no_occurrence (pfx : List Char) :
    ∀ s : List Char, ¬ pfx <:+: s → lcpGo pfx none s = (s, 0) := by
  intro s
  induction s with
  | nil => intro _; rfl
  | cons c t ih =>
    intro h
    have hm : pfx.isPrefixOf (c :: t) = false := by
      rw [Bool.eq_false_iff]
      intro hb
      exact h (List.isPrefixOf_iff_prefix.mp hb).isInfix
    have ht := ih (fun hi => h (List.infix_cons hi))
    simp [lcpGo, hm, ht]

/-- The newline-free take has no newlines. -/
theorem countNL_takeWhile_ne (l : List Char) :
    countNL (l.takeWhile (· ≠ '\n')) = 0 := by
  unfold countNL countChar
  rw [List.countP_eq_zero]
  intro a ha
  have := List.mem_takeWhile_imp ha
  simpa using this

/-- The rewritten run never holds more than two newlines. -/
theorem collapseRun_countNL_le_two (run : List Char) :
    countNL (collapseRun run) ≤ 2 := by
  unfold collapseRun
  by_cases h : 3 ≤ countNL run
  · rw [if_pos h]
    have h1 : countNL (run.takeWhile (· ≠ '\n')) = 0 := countNL_takeWhile_ne run
    have h2 : countNL (run.reverse.takeWhile (· ≠ '\n')) = 0 := countNL_takeWhile_ne run.reverse
    unfold countNL countChar at h1 h2 ⊢
    rw [List.countP_append]
    simp only [List.countP_cons]
    rw [List.countP_reverse]
    simp only [h1, h2]
    simp
  · rw [if_neg h]
    omega

/-- `collapseRun` keeps a whitespace run inside the whitespace class. -/
theorem collapseRun_all_ws (run : List Char) (hw : ∀ c ∈ run, jsWhitespace c = true) :
    ∀ c ∈ collapseRun run, jsWhitespace c = true := by
  unfold collapseRun
  by_cases h : 3 ≤ countNL run
  · rw [if_pos h]
    intro c hc
    rcases List.mem_append.mp hc with hc1 | hc2
    · exact hw c (List.takeWhile_subset _ hc1)
    · rcases hc2 with _ | ⟨_, hc3⟩
      · decide
      rcases hc3 with _ | ⟨_, hc4⟩
      · decide
      · refine hw c ?_
        have h5 : c ∈ run.reverse.takeWhile (· ≠ '\n') := List.mem_reverse.mp hc4
        have h6 : c ∈ run.reverse := List.takeWhile_subset _ h5
        exact List.mem_reverse.mp h6
  · rw [if_neg h]; exact hw

/-- Rewriting a run twice equals rewriting it once. -/
theorem collapseRun_idem (run : List Char) :
    collapseRun (collapseRun run) = collapseRun run := by
  have h : countNL (collapseRun run) ≤ 2 := collapseRun_countNL_le_two run
  generalize collapseRun run = x at h ⊢
  unfold collapseRun
  rw [if_neg (by omega)]

/-- A non-empty all-whitespace run is rewritten to a non-empty list headed by
a whitespace character. -/
theorem collapseRun_ws_head (run : List Char) (hne : run ≠ [])
    (hw : ∀ c ∈ run, jsWhitespace c = true) :
    ∃ d r, collapseRun run = d :: r ∧ jsWhitespace d = true := by
  have hall := collapseRun_all_ws run hw
  rcases heq : collapseRun run with _ | ⟨d, r⟩
  · exfalso
    unfold collapseRun at heq
    by_cases h : 3 ≤ countNL run
    · rw [if_pos h] at heq
      rcases run.takeWhile (· ≠ '\n') with _ | _ <;> simp at heq
    · rw [if_neg h] at heq
      exact hne heq
  · exact ⟨d, r, rfl, hall d (heq ▸ (by simp))⟩

/-- On an all-whitespace input the streaming collapse flushes one run. -/
theorem collapseGo_all_ws :
    ∀ (w pending : List Char), (∀ c ∈ w, jsWhitespace c = true) →
      collapseGo pending w = collapseRun (pending.reverse ++ w) := by
  intro w
  induction w with
  | nil => intro pending _; simp [collapseGo]
  | cons c t ih =>
    intro pending hw
    have hc : jsWhitespace c = true := hw c (by simp)
    simp only [collapseGo, hc, if_pos]
    rw [ih (c :: pending) (fun a ha => hw a (by simp [ha]))]
    simp

/-- The streaming collapse splits at the first non-whitespace character. -/
theorem collapseGo_split :
    ∀ (w : List Char) (pending : List Char) (c : Char) (t : List Char),
      (∀ a ∈ w, jsWhitespace a = true) → jsWhitespace c = false →
      collapseGo pending (w ++ c :: t) =
        collapseRun (pending.reverse ++ w) ++ c :: collapseGo [] t := by
  intro w
  induction w with
  | nil =>
    intro pending c t _ hc
    simp [collapseGo, hc]
  | cons d w' ih =>
    intro pending c t hw hc
    have hd : jsWhitespace d = true := hw d (by simp)
    simp only [List.cons_append, collapseGo, hd, if_pos, List.append_eq]
    rw [ih (d :: pending) c t (fun a ha => hw a (by simp [ha])) hc]
    simp

/-- The first element surviving `dropWhile` fails the predicate. -/
theorem dropWhile_eq_cons_head_not {α : Type} (p : α → Bool) :
    ∀ (l : List α) (c : α) (t : List α), l.dropWhile p = c :: t → p c = false := by
  intro l
  induction l with
  | nil => intro c t h; simp [List.dropWhile] at h
  | cons a l' ih =>
    intro c t h
    rw [List.dropWhile_cons] at h
    by_cases ha : p a = true
    · rw [if_pos ha] at h
      exact ih c t h
    · rw [if_neg ha] at h
      obtain ⟨rfl, rfl⟩ := (List.cons.injEq a l' c t).mp h
      simpa using ha

/-- The blank-line collapse is idempotent: after one pass every maximal
whitespace run holds at most two newlines, so a second pass changes
nothing. -/
theorem collapseGo_nil_idem : ∀ s : List Char, collapseGo [] (collapseGo [] s) = collapseGo [] s
  | s => by
    have hw : ∀ a ∈ s.takeWhile jsWhitespace, jsWhitespace a = true :=
      fun a ha => List.mem_takeWhile_imp ha
    rcases hd : s.dropWhile jsWhitespace with _ | ⟨c, t⟩
    · have hs : s.takeWhile jsWhitespace = s := by
        have := List.takeWhile_append_dropWhile jsWhitespace s
        rw [hd] at this
        simpa using this
      have hws : ∀ a ∈ s, jsWhitespace a = true := hs ▸ hw
      rw [collapseGo_all_ws s [] hws]
      simp only [List.reverse_nil, List.nil_append]
      rw [collapseGo_all_ws (collapseRun s) [] (collapseRun_all_ws s hws)]
      simp only [List.reverse_nil, List.nil_append]
      exact collapseRun_idem s
    · have hc : jsWhitespace c = false := dropWhile_eq_cons_head_not jsWhitespace s c t hd
      have hsplit : s = s.takeWhile jsWhitespace ++ c :: t := by
        conv_lhs => rw [← List.takeWhile_append_dropWhile jsWhitespace s]
        rw [hd]
      have hlen : t.length < s.length := by
        have h1 : (s.dropWhile jsWhitespace).length ≤ s.length :=
          (List.dropWhile_sublist jsWhitespace).length_le
        rw [hd] at h1
        simp only [List.length_cons] at h1
        omega
      calc collapseGo [] (collapseGo [] s)
          = collapseGo [] (collapseRun (s.takeWhile jsWhitespace) ++ c :: collapseGo [] t) := by
            conv_lhs => rw [hsplit, collapseGo_split (s.takeWhile jsWhitespace) [] c t hw hc]
            simp
        _ = collapseRun (collapseRun (s.takeWhile jsWhitespace)) ++
              c :: collapseGo [] (collapseGo [] t) := by
            rw [collapseGo_split (collapseRun (s.takeWhile jsWhitespace)) [] c
              (collapseGo [] t) (collapseRun_all_ws _ hw) hc]
            simp
        _ = collapseRun (s.takeWhile jsWhitespace) ++ c :: collapseGo [] t := by
            rw [collapseRun_idem, collapseGo_nil_idem t]
        _ = collapseGo [] s := by
            conv_rhs => rw [hsplit, collapseGo_split (s.takeWhile jsWhitespace) [] c t hw hc]
            simp
termination_by s => s.length

/-- With a non-empty whitespace buffer the collapse output starts with a
whitespace character. -/
theorem collapseGo_pending_head :
    ∀ (s pending : List Char), pending ≠ [] → (∀ a ∈ pending, jsWhitespace a = true) →
      ∃ d r, collapseGo pending s = d :: r ∧ jsWhitespace d = true := by
  intro s
  induction s with
  | nil =>
    intro pending hne hws
    simp only [collapseGo]
    exact collapseRun_ws_head pending.reverse (by simpa using hne)
      (fun a ha => hws a (List.mem_reverse.mp ha))
  | cons c t ih =>
    intro pending hne hws
    by_cases hc : jsWhitespace c = true
    · simp only [collapseGo, hc, if_pos]
      exact ih (c :: pending) (by simp) (by
        intro a ha
        rcases List.mem_cons.mp ha with rfl | ha2
        · exact hc
        · exact hws a ha2)
    · simp only [collapseGo, hc, Bool.false_eq_true, if_false]
      obtain ⟨d, r, heq, hd⟩ := collapseRun_ws_head pending.reverse (by simpa using hne)
        (fun a ha => hws a (List.mem_reverse.mp ha))
      exact ⟨d, r ++ c :: collapseGo [] t, by rw [heq]; simp, hd⟩

/-- A whitespace-free prefix of the collapse output is a prefix of the
input. -/
theorem collapseGo_nil_prefix :
    ∀ (t q : List Char), (∀ a ∈ q, jsWhitespace a = false) →
      q <+: collapseGo [] t → q <+: t := by
  intro t
  induction t with
  | nil => intro q _ hp; exact hp
  | cons c t' ih =>
    intro q hq hp
    by_cases hc : jsWhitespace c = true
    · simp only [collapseGo, hc, if_pos] at hp
      rcases q with _ | ⟨q0, q'⟩
      · exact List.nil_prefix
      · obtain ⟨d, r, heq, hd⟩ := collapseGo_pending_head t' [c] (by simp) (by simp [hc])
        rw [heq] at hp
        obtain ⟨hq0, -⟩ := List.cons_prefix_cons.mp hp
        have := hq q0 (by simp)
        rw [hq0, hd] at this
        cases this
    · have h0 : collapseGo [] (c :: t') = c :: collapseGo [] t' := by
        simp [collapseGo, collapseRun, countNL, countChar, hc]
      rw [h0] at hp
      rcases q with _ | ⟨q0, q'⟩
      · exact List.nil_prefix
      obtain ⟨hq0, hq'⟩ := List.cons_prefix_cons.mp hp
      subst hq0
      exact List.cons_prefix_cons.mpr
        ⟨rfl, ih q' (fun a ha => hq a (by simp [ha])) hq'⟩

/-- A whitespace-free pattern occurring in an all-whitespace prefix plus a
remainder occurs in the remainder. -/
theorem infix_append_ws_left (pat : List Char) (hne : pat ≠ [])
    (hnws : ∀ a ∈ pat, jsWhitespace a = false) :
    ∀ (A L : List Char), (∀ a ∈ A, jsWhitespace a = true) →
      pat <:+: (A ++ L) → pat <:+: L := by
  intro A
  induction A with
  | nil => intro L _ h; simpa using h
  | cons a A' ih =>
    intro L hA h
    rw [List.cons_append] at h
    rcases List.infix_cons_iff.mp h with hpre | hinf
    · rcases pat with _ | ⟨p0, p'⟩
      · exact absurd rfl hne
      obtain ⟨hp0, -⟩ := List.cons_prefix_cons.mp hpre
      have hx := hnws p0 (by simp)
      have hy := hA a (by simp)
      rw [hp0, hy] at hx
      cases hx
    · exact ih L (fun x hx => hA x (by simp [hx])) hinf

/-- The blank-line collapse cannot create an occurrence of a whitespace-free
pattern. -/
theorem collapseGo_not_infix (pat : List Char) (hne : pat ≠ [])
    (hnws : ∀ a ∈ pat, jsWhitespace a = false) :
    ∀ (s pending : List Char), (∀ a ∈ pending, jsWhitespace a = true) →
      ¬ pat <:+: s → ¬ pat <:+: collapseGo pending s := by
  intro s
  induction s with
  | nil =>
    intro pending hp _ hinf
    have hall := collapseRun_all_ws pending.reverse
      (fun a ha => hp a (List.mem_reverse.mp ha))
    rcases pat with _ | ⟨p0, p'⟩
    · exact hne rfl
    have hmem : p0 ∈ collapseGo pending [] := hinf.subset (by simp)
    have hx := hall p0 (by simpa [collapseGo] using hmem)
    have hy := hnws p0 (by simp)
    rw [hy] at hx
    cases hx
  | cons c t ih =>
    intro pending hp hno hinf
    by_cases hc : jsWhitespace c = true
    · simp only [collapseGo, hc, if_pos] at hinf
      refine ih (c :: pending) ?_ (fun h => hno (List.infix_cons h)) hinf
      intro a ha
      rcases List.mem_cons.mp ha with rfl | ha2
      · exact hc
      · exact hp a ha2
    · simp only [collapseGo, hc, Bool.false_eq_true, if_false] at hinf
      have h1 := infix_append_ws_left pat hne hnws (collapseRun pending.reverse)
        (c :: collapseGo [] t)
        (collapseRun_all_ws _ (fun a ha => hp a (List.mem_reverse.mp ha))) hinf
      rcases List.infix_cons_iff.mp h1 with hpre | hinf2
      · rcases pat with _ | ⟨p0, p'⟩
        · exact hne rfl
        obtain ⟨hp0, hp'⟩ := List.cons_prefix_cons.mp hpre
        subst hp0
        by_cases hp'e : p' = []
        · subst hp'e
          exact hno (List.IsPrefix.isInfix
            (List.cons_prefix_cons.mpr ⟨rfl, List.nil_prefix⟩))
        · have := collapseGo_nil_prefix t p' (fun a ha => hnws a (by simp [ha])) hp'
          exact hno (List.IsPrefix.isInfix (List.cons_prefix_cons.mpr ⟨rfl, this⟩))
      · exact ih [] (by simp) (fun h => hno (List.infix_cons h)) hinf2

/-- In body mode with no closer anywhere ahead, the block scanner restores
everything and counts nothing. -/
theorem bcpGo_body_no_closer :
    ∀ (s : List Char), ¬ ['*', '/'] <:+: s → ∀ pending : List Char,
      bcpGo ['/', '*'] ['*', '/'] (.body pending) s = (pending.reverse ++ s, 0) := by
  intro s
  induction s with
  | nil => intro _ pending; simp [bcpGo]
  | cons c t ih =>
    intro h pending
    have hm : ['*', '/'].isPrefixOf (c :: t) = false := by
      rw [Bool.eq_false_iff]
      intro hb
      exact h (List.isPrefixOf_iff_prefix.mp hb).isInfix
    simp only [bcpGo, hm, Bool.false_eq_true, if_false]
    rw [ih (fun hi => h (List.infix_cons hi)) (c :: pending)]
    simp

/-- With no opener anywhere, the block scanner is the identity and counts
nothing. -/
theorem bcpGo_scan_no_opener :
    ∀ (s : List Char), ¬ ['/', '*'] <:+: s →
      bcpGo ['/', '*'] ['*', '/'] .scan s = (s, 0) := by
  intro s
  induction s with
  | nil => intro _; rfl
  | cons c t ih =>
    intro h
    have hm : ['/', '*'].isPrefixOf (c :: t) = false := by
      rw [Bool.eq_false_iff]
      intro hb
      exact h (List.isPrefixOf_iff_prefix.mp hb).isInfix
    simp only [bcpGo, hm, Bool.false_eq_true, if_false]
    rw [ih (fun hi => h (List.infix_cons hi))]

/-- A two-character pattern occurring in a list admits a first-occurrence
split: everything strictly before the first occurrence (including the
occurrence's own first character) is occurrence-free. -/
theorem infix_pair_first_split (a b : Char) :
    ∀ s : List Char, [a, b] <:+: s →
      ∃ u v, s = u ++ a :: b :: v ∧ ¬ [a, b] <:+: (u ++ [a]) := by
  intro s
  induction s with
  | nil =>
    intro h
    have := List.eq_nil_of_infix_nil h
    cases this
  | cons c t ih =>
    intro h
    by_cases hp : [a, b] <+: (c :: t)
    · rcases t with _ | ⟨t0, t'⟩
      · obtain ⟨-, h2⟩ := List.cons_prefix_cons.mp hp
        have := List.prefix_nil.mp h2
        cases this
      · obtain ⟨h1, h2⟩ := List.cons_prefix_cons.mp hp
        obtain ⟨h3, -⟩ := List.cons_prefix_cons.mp h2
        refine ⟨[], t', by rw [h1, h3]; rfl, ?_⟩
        intro hinf
        have := hinf.length_le
        simp at this
    · have h2 : [a, b] <:+: t := by
        rcases List.infix_cons_iff.mp h with hpre | hi
        · exact absurd hpre hp
        · exact hi
      obtain ⟨u', v, heq, hcond⟩ := ih h2
      refine ⟨c :: u', v, by rw [heq]; simp, ?_⟩
      intro hinf
      rcases List.infix_cons_iff.mp hinf with hpre | hi
      · apply hp
        obtain ⟨h1, h2⟩ := List.cons_prefix_cons.mp hpre
        subst h1
        rcases u' with _ | ⟨u0, u''⟩
        · obtain ⟨h3, -⟩ := List.cons_prefix_cons.mp h2
          subst h3
          rw [heq]
          exact List.cons_prefix_cons.mpr ⟨rfl, List.cons_prefix_cons.mpr ⟨rfl, List.nil_prefix⟩⟩
        · obtain ⟨h3, -⟩ := List.cons_prefix_cons.mp h2
          subst h3
          rw [heq]
          exact List.cons_prefix_cons.mpr ⟨rfl, List.cons_prefix_cons.mpr ⟨rfl, List.nil_prefix⟩⟩
      · exact hcond hi

/-- An occurrence of a two-character pattern in an append is in the left part,
in the right part, or exactly at the junction. -/
theorem infix_pair_append (a b : Char) :
    ∀ (x y : List Char), [a, b] <:+: (x ++ y) →
      [a, b] <:+: x ∨ [a, b] <:+: y ∨
        ((∃ x', x = x' ++ [a]) ∧ (∃ y', y = b :: y')) := by
  intro x
  induction x with
  | nil => intro y h; right; left; simpa using h
  | cons c x' ih =>
    intro y h
    rw [List.cons_append] at h
    rcases List.infix_cons_iff.mp h with hpre | hi
    · obtain ⟨h1, h2⟩ := List.cons_prefix_cons.mp hpre
      subst h1
      rcases x' with _ | ⟨x0, x''⟩
      · rcases y with _ | ⟨y0, y'⟩
        · have := List.prefix_nil.mp h2
          cases this
        · have h3 : b = y0 := by simpa using h2
          subst h3
          exact Or.inr (Or.inr ⟨⟨[], rfl⟩, ⟨y', rfl⟩⟩)
      · have h3 : b = x0 := by simpa using h2
        subst h3
        left
        exact (List.cons_prefix_cons.mpr
          ⟨rfl, List.cons_prefix_cons.mpr ⟨rfl, List.nil_prefix⟩⟩).isInfix
    · rcases ih y hi with h1 | h2 | ⟨⟨x'', hx⟩, hy⟩
      · exact Or.inl (List.infix_cons h1)
      · exact Or.inr (Or.inl h2)
      · exact Or.inr (Or.inr ⟨⟨c :: x'', by rw [hx]; simp⟩, hy⟩)

/-- Head test for the opening delimiter fails strictly before a first
occurrence. -/
theorem opener_prefix_false (c : Char) (u' X : List Char)
    (hu : ¬ ['/', '*'] <:+: ((c :: u') ++ ['/'])) :
    ['/', '*'].isPrefixOf (c :: (u' ++ '/' :: '*' :: X)) = false := by
  rw [Bool.eq_false_iff]
  intro hb
  have hpre := List.isPrefixOf_iff_prefix.mp hb
  apply hu
  obtain ⟨h1, h2⟩ := List.cons_prefix_cons.mp hpre
  rcases u' with _ | ⟨u0, u''⟩
  · simp at h2
  · have h3 : ('*' : Char) = u0 := by simpa using h2
    subst h1; subst h3
    rw [List.cons_append]
    exact (List.cons_prefix_cons.mpr ⟨rfl,
      List.cons_prefix_cons.mpr ⟨rfl, List.nil_prefix⟩⟩).isInfix

/-- Head test for the closing delimiter fails strictly before a first
occurrence. -/
theorem closer_prefix_false (c : Char) (v' X : List Char)
    (hv : ¬ ['*', '/'] <:+: ((c :: v') ++ ['*'])) :
    ['*', '/'].isPrefixOf (c :: (v' ++ '*' :: '/' :: X)) = false := by
  rw [Bool.eq_false_iff]
  intro hb
  have hpre := List.isPrefixOf_iff_prefix.mp hb
  apply hv
  obtain ⟨h1, h2⟩ := List.cons_prefix_cons.mp hpre
  rcases v' with _ | ⟨v0, v''⟩
  · simp at h2
  · have h3 : ('/' : Char) = v0 := by simpa using h2
    subst h1; subst h3
    rw [List.cons_append]
    exact (List.cons_prefix_cons.mpr ⟨rfl,
      List.cons_prefix_cons.mpr ⟨rfl, List.nil_prefix⟩⟩).isInfix

/-- A first opener with no closer anywhere after it is never matched: the
scanner restores everything and counts nothing (the lazy regex finds no
closing delimiter, so there is no match to replace). -/
theorem bcpGo_scan_opener_no_closer :
    ∀ (u v : List Char), ¬ ['/', '*'] <:+: (u ++ ['/']) → ¬ ['*', '/'] <:+: v →
      bcpGo ['/', '*'] ['*', '/'] .scan (u ++ '/' :: '*' :: v)
        = (u ++ '/' :: '*' :: v, 0) := by
  intro u
  induction u with
  | nil =>
    intro v _ hv
    have h1 : bcpGo ['/', '*'] ['*', '/'] .scan ('/' :: '*' :: v)
        = bcpGo ['/', '*'] ['*', '/'] (.body ['*', '/']) v := by
      simp [bcpGo, List.isPrefixOf]
    simp only [List.nil_append, h1, bcpGo_body_no_closer v hv]
    rfl
  | cons c u' ih =>
    intro v hu hv
    have hm := opener_prefix_false c u' v hu
    have hstep : bcpGo ['/', '*'] ['*', '/'] .scan (c :: (u' ++ '/' :: '*' :: v))
        = (c :: (bcpGo ['/', '*'] ['*', '/'] .scan (u' ++ '/' :: '*' :: v)).1,
           (bcpGo ['/', '*'] ['*', '/'] .scan (u' ++ '/' :: '*' :: v)).2) := by
      simp only [bcpGo, hm, Bool.false_eq_true, if_false]
    have hu' : ¬ ['/', '*'] <:+: (u' ++ ['/']) := fun hi => hu (by
      rw [List.cons_append]; exact List.infix_cons hi)
    rw [List.cons_append, hstep, ih v hu' hv]

/-- In body mode, the scanner consumes up to the earliest closer, counts one
match and resumes scanning after it. -/
theorem bcpGo_body_closer :
    ∀ (v : List Char), ∀ w : List Char, ¬ ['*', '/'] <:+: (v ++ ['*']) →
      ∀ pending : List Char,
      bcpGo ['/', '*'] ['*', '/'] (.body pending) (v ++ '*' :: '/' :: w)
        = ((bcpGo ['/', '*'] ['*', '/'] .scan w).1,
           (bcpGo ['/', '*'] ['*', '/'] .scan w).2 + 1) := by
  intro v
  induction v with
  | nil =>
    intro w _ pending
    have h1 : bcpGo ['/', '*'] ['*', '/'] (.body pending) ('*' :: '/' :: w)
        = ((bcpGo ['/', '*'] ['*', '/'] .scan w).1,
           (bcpGo ['/', '*'] ['*', '/'] .scan w).2 + 1) := by
      simp [bcpGo, List.isPrefixOf]
    simpa using h1
  | cons c v' ih =>
    intro w h pending
    have hm := closer_prefix_false c v' w h
    have hstep : bcpGo ['/', '*'] ['*', '/'] (.body pending)
          (c :: (v' ++ '*' :: '/' :: w))
        = bcpGo ['/', '*'] ['*', '/'] (.body (c :: pending))
            (v' ++ '*' :: '/' :: w) := by
      simp only [bcpGo, hm, Bool.false_eq_true, if_false]
    have h' : ¬ ['*', '/'] <:+: (v' ++ ['*']) := fun hi => h (by
      rw [List.cons_append]; exact List.infix_cons hi)
    rw [List.cons_append, hstep, ih w h' (c :: pending)]

/-- A first block match: the scanner keeps the text before the opener, drops
the match, counts it, and continues after the closer. -/
theorem bcpGo_scan_match :
    ∀ (u v w : List Char),
      ¬ ['/', '*'] <:+: (u ++ ['/']) → ¬ ['*', '/'] <:+: (v ++ ['*']) →
      bcpGo ['/', '*'] ['*', '/'] .scan (u ++ '/' :: '*' :: (v ++ '*' :: '/' :: w))
        = (u ++ (bcpGo ['/', '*'] ['*', '/'] .scan w).1,
           (bcpGo ['/', '*'] ['*', '/'] .scan w).2 + 1) := by
  intro u
  induction u with
  | nil =>
    intro v w _ hv
    have h1 : bcpGo ['/', '*'] ['*', '/'] .scan ('/' :: '*' :: (v ++ '*' :: '/' :: w))
        = bcpGo ['/', '*'] ['*', '/'] (.body ['*', '/']) (v ++ '*' :: '/' :: w) := by
      simp [bcpGo, List.isPrefixOf]
    simp only [List.nil_append, h1, bcpGo_body_closer v w hv ['*', '/']]
  | cons c u' ih =>
    intro v w hu hv
    have hm := opener_prefix_false c u' (v ++ '*' :: '/' :: w) hu
    have hstep : bcpGo ['/', '*'] ['*', '/'] .scan
          (c :: (u' ++ '/' :: '*' :: (v ++ '*' :: '/' :: w)))
        = (c :: (bcpGo ['/', '*'] ['*', '/'] .scan
              (u' ++ '/' :: '*' :: (v ++ '*' :: '/' :: w))).1,
           (bcpGo ['/', '*'] ['*', '/'] .scan
              (u' ++ '/' :: '*' :: (v ++ '*' :: '/' :: w))).2) := by
      simp only [bcpGo, hm, Bool.false_eq_true, if_false]
    have hu' : ¬ ['/', '*'] <:+: (u' ++ ['/']) := fun hi => hu (by
      rw [List.cons_append]; exact List.infix_cons hi)
    rw [List.cons_append, hstep, ih v w hu' hv]
    simp

/-- When no block match exists, the block pass is the identity with count 0. -/
theorem bcpGo_scan_of_noBlockMatch (s : List Char) (h : NoBlockMatch s) :
    bcpGo ['/', '*'] ['*', '/'] .scan s = (s, 0) := by
  by_cases ho : ['/', '*'] <:+: s
  · obtain ⟨u, v, heq, hcond⟩ := infix_pair_first_split '/' '*' s ho
    subst heq
    exact bcpGo_scan_opener_no_closer u v hcond (h u v rfl)
  · exact bcpGo_scan_no_opener s ho

/-- On input free of `//`, the extra JS block pass keeps the output free of
`//` and leaves no block match in it: a junction created by deleting a match
starts with the character just before an opener's slash, so a `//` or `/*`
spanning it would force a `//` in the input; openers surviving in the output
sit in the restored tail, after every closer. -/
theorem bcpGo_scan_preserves :
    ∀ s : List Char, ¬ ['/', '/'] <:+: s →
      ¬ ['/', '/'] <:+: (bcpGo ['/', '*'] ['*', '/'] .scan s).1 ∧
        NoBlockMatch (bcpGo ['/', '*'] ['*', '/'] .scan s).1
  | s => by
    intro hno
    by_cases ho : ['/', '*'] <:+: s
    · obtain ⟨u, v₀, heq, hcond⟩ := infix_pair_first_split '/' '*' s ho
      by_cases hc : ['*', '/'] <:+: v₀
      · obtain ⟨v, w, heqv, hcondv⟩ := infix_pair_first_split '*' '/' v₀ hc
        subst heqv; subst heq
        have hlen : w.length < (u ++ '/' :: '*' :: (v ++ '*' :: '/' :: w)).length := by
          simp [List.length_append]
          omega
        have hw : ¬ ['/', '/'] <:+: w := fun hi =>
          hno (hi.trans ⟨u ++ '/' :: '*' :: (v ++ ['*', '/']), [], by simp⟩)
        obtain ⟨ih1, ih2⟩ := bcpGo_scan_preserves w hw
        rw [bcpGo_scan_match u v w hcond hcondv]
        constructor
        · intro hi
          rcases infix_pair_append '/' '/' u
              (bcpGo ['/', '*'] ['*', '/'] .scan w).1 hi with
            h1 | h2 | ⟨⟨u₁, hu₁⟩, -⟩
          · exact hno (h1.trans ⟨[], '/' :: '*' :: (v ++ '*' :: '/' :: w), by simp⟩)
          · exact ih1 h2
          · apply hno
            refine ⟨u₁, '*' :: (v ++ '*' :: '/' :: w), ?_⟩
            rw [hu₁]; simp
        · show NoBlockMatch _
          intro a b hab hclose
          replace hab : u ++ (bcpGo ['/', '*'] ['*', '/'] .scan w).1
              = a ++ '/' :: '*' :: b := hab
          rcases List.append_eq_append_iff.mp hab with ⟨m, hm1, hm2⟩ | ⟨m, hm1, hm2⟩
          · exact ih2 m b hm2 hclose
          · rcases m with _ | ⟨m0, m'⟩
            · simp only [List.nil_append] at hm2
              exact ih2 [] b hm2.symm hclose
            · obtain ⟨hm0, hm2'⟩ := (List.cons.injEq _ _ _ _).mp hm2
              rcases m' with _ | ⟨m1, m''⟩
              · apply hno
                refine ⟨a, '*' :: (v ++ '*' :: '/' :: w), ?_⟩
                rw [hm1, ← hm0]; simp
              · obtain ⟨hm1', -⟩ := (List.cons.injEq _ _ _ _).mp hm2'
                apply hcond
                refine List.IsInfix.trans ?_ (show u <:+: u ++ ['/'] from ⟨[], ['/'], by simp⟩)
                exact ⟨a, m'', by rw [hm1, ← hm0, ← hm1']; simp⟩
      · subst heq
        rw [bcpGo_scan_opener_no_closer u v₀ hcond hc]
        refine ⟨hno, ?_⟩
        show NoBlockMatch _
        intro a b hab hclose
        replace hab : u ++ '/' :: '*' :: v₀ = a ++ '/' :: '*' :: b := hab
        rcases List.append_eq_append_iff.mp hab with ⟨m, hm1, hm2⟩ | ⟨m, hm1, hm2⟩
        · rcases m with _ | ⟨m0, m'⟩
          · simp only [List.nil_append] at hm2
            obtain ⟨-, hb⟩ := (List.cons.injEq _ _ _ _).mp hm2
            obtain ⟨-, hb'⟩ := (List.cons.injEq _ _ _ _).mp hb
            exact hc (hb' ▸ hclose)
          · obtain ⟨hm0, hm2'⟩ := (List.cons.injEq _ _ _ _).mp hm2
            rcases m' with _ | ⟨m1, m''⟩
            · simp at hm2'
            · obtain ⟨hm1', hm2''⟩ := (List.cons.injEq _ _ _ _).mp hm2'
              apply hc
              exact hclose.trans ⟨m'' ++ ['/', '*'], by rw [hm2'']; simp⟩
        · rcases m with _ | ⟨m0, m'⟩
          · simp only [List.nil_append] at hm2
            obtain ⟨-, hb⟩ := (List.cons.injEq _ _ _ _).mp hm2
            obtain ⟨-, hb'⟩ := (List.cons.injEq _ _ _ _).mp hb
            exact hc (hb'.symm ▸ hclose)
          · obtain ⟨hm0, hm2'⟩ := (List.cons.injEq _ _ _ _).mp hm2
            rcases m' with _ | ⟨m1, m''⟩
            · simp at hm2'
            · obtain ⟨hm1', -⟩ := (List.cons.injEq _ _ _ _).mp hm2'
              apply hcond
              refine List.IsInfix.trans ?_ (show u <:+: u ++ ['/'] from ⟨[], ['/'], by simp⟩)
              exact ⟨a, m'', by rw [hm1, ← hm0, ← hm1']; simp⟩
    · rw [bcpGo_scan_no_opener s ho]
      refine ⟨hno, ?_⟩
      show NoBlockMatch _
      intro a b hab _
      exact ho (by rw [show s = a ++ '/' :: '*' :: b from hab]; exact ⟨a, b, by simp⟩)
termination_by s => s.length

/-- A non-whitespace head of the collapsed output is the head of the input,
and the rest of the output is the collapse of the rest of the input. -/
theorem collapseGo_nil_head_nonws (t : List Char) (q : Char) (b : List Char)
    (hq : jsWhitespace q = false) (h : collapseGo [] t = q :: b) :
    ∃ t₂, t = q :: t₂ ∧ b = collapseGo [] t₂ := by
  rcases hd : t.dropWhile jsWhitespace with _ | ⟨c, t₂⟩
  · have hs : t.takeWhile jsWhitespace = t := by
      have := List.takeWhile_append_dropWhile jsWhitespace t
      rw [hd] at this
      simpa using this
    have hws : ∀ a ∈ t, jsWhitespace a = true :=
      hs ▸ (fun a ha => List.mem_takeWhile_imp ha)
    rw [collapseGo_all_ws t [] hws] at h
    simp only [List.reverse_nil, List.nil_append] at h
    have hqt := collapseRun_all_ws t hws q (by rw [h]; simp)
    rw [hqt] at hq
    cases hq
  · have hc : jsWhitespace c = false := dropWhile_eq_cons_head_not jsWhitespace t c t₂ hd
    have hw : ∀ a ∈ t.takeWhile jsWhitespace, jsWhitespace a = true :=
      fun a ha => List.mem_takeWhile_imp ha
    have hsplit : t = t.takeWhile jsWhitespace ++ c :: t₂ := by
      conv_lhs => rw [← List.takeWhile_append_dropWhile jsWhitespace t]
      rw [hd]
    rw [hsplit, collapseGo_split (t.takeWhile jsWhitespace) [] c t₂ hw hc] at h
    simp only [List.reverse_nil, List.nil_append] at h
    rcases htw : t.takeWhile jsWhitespace with _ | ⟨d, w'⟩
    · rw [htw] at h hsplit
      have hnil : collapseRun ([] : List Char) = [] := rfl
      rw [hnil, List.nil_append] at h
      obtain ⟨hcq, hb⟩ := (List.cons.injEq _ _ _ _).mp h
      exact ⟨t₂, by rw [hsplit, hcq]; simp, hb.symm⟩
    · rw [htw] at h
      obtain ⟨d', r, hr, hdws⟩ := collapseRun_ws_head (d :: w') (by simp) (htw ▸ hw)
      rw [hr, List.cons_append] at h
      obtain ⟨hqd, -⟩ := (List.cons.injEq _ _ _ _).mp h
      rw [hqd] at hdws
      rw [hdws] at hq
      cases hq

/-- Occurrences of adjacent non-whitespace characters in the collapsed output
come from adjacent occurrences in the input, and the output past the
occurrence is the collapse of the input past it: the collapse rewrites
whitespace runs to non-empty whitespace runs and never touches anything
else. -/
theorem collapseGo_split_back (p q : Char) (hp : jsWhitespace p = false)
    (hq : jsWhitespace q = false) :
    ∀ (s a b : List Char), collapseGo [] s = a ++ p :: q :: b →
      ∃ a' b', s = a' ++ p :: q :: b' ∧ b = collapseGo [] b'
  | s => by
    intro a b h
    replace h : collapseGo [] s = a ++ p :: q :: b := h
    show ∃ a' b', s = a' ++ p :: q :: b' ∧ b = collapseGo [] b'
    rcases hd : s.dropWhile jsWhitespace with _ | ⟨c, t⟩
    · have hs : s.takeWhile jsWhitespace = s := by
        have := List.takeWhile_append_dropWhile jsWhitespace s
        rw [hd] at this
        simpa using this
      have hws : ∀ x ∈ s, jsWhitespace x = true :=
        hs ▸ (fun x hx => List.mem_takeWhile_imp hx)
      rw [collapseGo_all_ws s [] hws] at h
      simp only [List.reverse_nil, List.nil_append] at h
      have hpws := collapseRun_all_ws s hws p (by rw [h]; simp)
      rw [hpws] at hp
      cases hp
    · have hc : jsWhitespace c = false := dropWhile_eq_cons_head_not jsWhitespace s c t hd
      have hw : ∀ x ∈ s.takeWhile jsWhitespace, jsWhitespace x = true :=
        fun x hx => List.mem_takeWhile_imp hx
      have hsplit : s = s.takeWhile jsWhitespace ++ c :: t := by
        conv_lhs => rw [← List.takeWhile_append_dropWhile jsWhitespace s]
        rw [hd]
      have hlen : t.length < s.length := by
        have h1 : (s.dropWhile jsWhitespace).length ≤ s.length :=
          (List.dropWhile_sublist jsWhitespace).length_le
        rw [hd] at h1
        simp only [List.length_cons] at h1
        omega
      rw [hsplit, collapseGo_split (s.takeWhile jsWhitespace) [] c t hw hc] at h
      simp only [List.reverse_nil, List.nil_append] at h
      rcases List.append_eq_append_iff.mp h with ⟨m, hm1, hm2⟩ | ⟨m, hm1, hm2⟩
      · rcases m with _ | ⟨m0, m'⟩
        · simp only [List.nil_append] at hm2
          obtain ⟨hcp, hrest⟩ := (List.cons.injEq _ _ _ _).mp hm2
          obtain ⟨t₂, ht, hb⟩ := collapseGo_nil_head_nonws t q b hq hrest
          refine ⟨s.takeWhile jsWhitespace, t₂, ?_, hb⟩
          conv_lhs => rw [hsplit]
          rw [ht, hcp]
        · obtain ⟨hcm, hrest⟩ := (List.cons.injEq _ _ _ _).mp hm2
          obtain ⟨a₂, b', ht, hb⟩ := collapseGo_split_back p q hp hq t m' b hrest
          refine ⟨s.takeWhile jsWhitespace ++ c :: a₂, b', ?_, hb⟩
          conv_lhs => rw [hsplit]
          rw [ht]
          simp
      · rcases m with _ | ⟨m0, m'⟩
        · simp only [List.nil_append] at hm2
          obtain ⟨hpc, hrest⟩ := (List.cons.injEq _ _ _ _).mp hm2
          obtain ⟨t₂, ht, hb⟩ := collapseGo_nil_head_nonws t q b hq hrest.symm
          refine ⟨s.takeWhile jsWhitespace, t₂, ?_, hb⟩
          conv_lhs => rw [hsplit]
          rw [ht, ← hpc]
        · obtain ⟨hpm, -⟩ := (List.cons.injEq _ _ _ _).mp hm2
          have hm0 : jsWhitespace m0 = true :=
            collapseRun_all_ws (s.takeWhile jsWhitespace) hw m0 (by rw [hm1]; simp)
          rw [← hpm] at hm0
          rw [hm0] at hp
          cases hp
termination_by s => s.length

/-- The blank-line collapse preserves the absence of a block match: it keeps
every non-whitespace character and the relative order of `/*` and `*/`
occurrences. -/
theorem noBlockMatch_collapse (s : List Char) (h : NoBlockMatch s) :
    NoBlockMatch (collapseBlankRuns s) := by
  intro a b heq hclose
  obtain ⟨a', b', hs, hb⟩ := collapseGo_split_back '/' '*' (by decide) (by decide) s a b
    (by simpa [collapseBlankRuns] using heq)
  have hb' : ['*', '/'] <:+: b' := by
    by_contra hno
    exact collapseGo_not_infix ['*', '/'] (by decide) (by decide) b' [] (by simp) hno
      (hb ▸ hclose)
  exact h a' b' hs hb'

/-- After stripping a JS/TS file once — line pass, extra block pass, collapse —
each stage of a second pass is the identity with count 0. -/
theorem stripJs_second_pass_id (cs : List Char) :
    lcpGo ['/', '/'] none (collapseBlankRuns
        (bcpGo ['/', '*'] ['*', '/'] .scan (lcpGo ['/', '/'] none cs).1).1)
      = (collapseBlankRuns
          (bcpGo ['/', '*'] ['*', '/'] .scan (lcpGo ['/', '/'] none cs).1).1, 0) ∧
    bcpGo ['/', '*'] ['*', '/'] .scan (collapseBlankRuns
        (bcpGo ['/', '*'] ['*', '/'] .scan (lcpGo ['/', '/'] none cs).1).1)
      = (collapseBlankRuns
          (bcpGo ['/', '*'] ['*', '/'] .scan (lcpGo ['/', '/'] none cs).1).1, 0) ∧
    collapseBlankRuns (collapseBlankRuns
        (bcpGo ['/', '*'] ['*', '/'] .scan (lcpGo ['/', '/'] none cs).1).1)
      = collapseBlankRuns
          (bcpGo ['/', '*'] ['*', '/'] .scan (lcpGo ['/', '/'] none cs).1).1 := by
  have hno0 : ¬ ['/', '/'] <:+: (lcpGo ['/', '/'] none cs).1 :=
    lcpGo_no_occurrence ['/', '/'] (by decide) (by decide) cs none
  obtain ⟨hno1, hnbm1⟩ := bcpGo_scan_preserves (lcpGo ['/', '/'] none cs).1 hno0
  have hno2 : ¬ ['/', '/'] <:+: collapseBlankRuns
      (bcpGo ['/', '*'] ['*', '/'] .scan (lcpGo ['/', '/'] none cs).1).1 :=
    collapseGo_not_infix ['/', '/'] (by decide) (by decide) _ [] (by simp) hno1
  have hnbm2 : NoBlockMatch (collapseBlankRuns
      (bcpGo ['/', '*'] ['*', '/'] .scan (lcpGo ['/', '/'] none cs).1).1) :=
    noBlockMatch_collapse _ hnbm1
  exact ⟨lcpGo_eq_of_no_occurrence ['/', '/'] _ hno2,
    bcpGo_scan_of_noBlockMatch _ hnbm2,
    collapseGo_nil_idem (bcpGo ['/', '*'] ['*', '/'] .scan (lcpGo ['/', '/'] none cs).1).1⟩

/-- Idempotence for the four JS/TS dialects (style `//` with a run of the
extra `/*...*/` pass): the line pass leaves no `//`, the block pass then
cannot splice new delimiters and leaves no block match, and the collapse
preserves both, so a second application removes nothing. -/
theorem removeComments_js_dialect_idem (content extension : String)
    (hfam : extension = ".js" ∨ extension = ".jsx" ∨ extension = ".ts"
      ∨ extension = ".tsx") :
    removeCommentsFromContent
        (removeCommentsFromContent content extension "//" "").1 extension "//" "" =
      ((removeCommentsFromContent content extension "//" "").1, 0) := by
  have hfam' : (decide (extension = ".js") || decide (extension = ".jsx")
      || decide (extension = ".ts") || decide (extension = ".tsx")) = true := by
    rcases hfam with rfl | rfl | rfl | rfl <;> rfl
  have hl1 : "//".toList = ['/', '/'] := rfl
  have hl2 : "/*".toList = ['/', '*'] := rfl
  have hl3 : "*/".toList = ['*', '/'] := rfl
  have hred : ∀ c : String,
      removeCommentsFromContent c extension "//" "" =
        (String.mk (collapseBlankRuns
            (bcpGo ['/', '*'] ['*', '/'] .scan (lcpGo ['/', '/'] none c.toList).1).1),
         (lcpGo ['/', '/'] none c.toList).2 +
           (bcpGo ['/', '*'] ['*', '/'] .scan (lcpGo ['/', '/'] none c.toList).1).2) := by
    intro c
    simp only [removeCommentsFromContent, lineCommentPass, blockCommentPass,
      hl1, hl2, hl3, hfam', ne_eq]
    simp
  rw [hred content, hred (String.mk (collapseBlankRuns
    (bcpGo ['/', '*'] ['*', '/'] .scan (lcpGo ['/', '/'] none content.toList).1).1))]
  have htl : (String.mk (collapseBlankRuns
      (bcpGo ['/', '*'] ['*', '/'] .scan (lcpGo ['/', '/'] none content.toList).1).1)).toList =
      collapseBlankRuns
        (bcpGo ['/', '*'] ['*', '/'] .scan (lcpGo ['/', '/'] none content.toList).1).1 := rfl
  obtain ⟨hl, hb, hc⟩ := stripJs_second_pass_id content.toList
  rw [htl]
  simp only [String.toList] at hl hb hc
  simp [hl, hb, hc]

/-- C3 amended: for every content and every line-comment (empty-suffix) style,
`removeCommentsFromContent` is idempotent — a second application removes
nothing (count 0) and returns the first output unchanged.  This includes the
four JS/TS dialects with their extra `/*...*/` pass.  (For block styles,
non-empty suffix, idempotence fails; see the counterexample.) -/
theorem C3_line_style_idempotent (content extension : String)
    (hs : (getCommentStyle extension).sfx = "") :
    removeCommentsFromContent
        (removeCommentsFromContent content extension
            (getCommentStyle extension).pfx (getCommentStyle extension).sfx).1
        extension (getCommentStyle extension).pfx (getCommentStyle extension).sfx =
      ((removeCommentsFromContent content extension
          (getCommentStyle extension).pfx (getCommentStyle extension).sfx).1, 0) := by
  by_cases hfam : extension = ".js" ∨ extension = ".jsx" ∨ extension = ".ts"
      ∨ extension = ".tsx"
  · have hpfx : (getCommentStyle extension).pfx = "//" := by
      rcases hfam with rfl | rfl | rfl | rfl <;> rfl
    rw [hpfx, hs]
    exact removeComments_js_dialect_idem content extension hfam
  · push_neg at hfam
    obtain ⟨h1, h2, h3, h4⟩ := hfam
    have hpfx := getCommentStyle_sfx_empty_pfx extension hs
    have hpl_ne : (getCommentStyle extension).pfx.toList ≠ [] := by
      rcases hpfx with h | h <;> rw [h] <;> decide
    have hpl_nws : ∀ c ∈ (getCommentStyle extension).pfx.toList, jsWhitespace c = false := by
      rcases hpfx with h | h <;> rw [h] <;> decide
    have hpl_nt : ∀ c ∈ (getCommentStyle extension).pfx.toList, jsLineTerm c = false := by
      rcases hpfx with h | h <;> rw [h] <;> decide
    have hpl_emp : (getCommentStyle extension).pfx.toList.isEmpty = false := by
      rcases hpfx with h | h <;> rw [h] <;> decide
    have hred : ∀ c : String,
        removeCommentsFromContent c extension
            (getCommentStyle extension).pfx (getCommentStyle extension).sfx =
          (String.mk (collapseBlankRuns
              (lcpGo (getCommentStyle extension).pfx.toList none c.toList).1),
           (lcpGo (getCommentStyle extension).pfx.toList none c.toList).2) := by
      intro c
      rw [hs]
      simp only [removeCommentsFromContent, lineCommentPass, hpl_emp,
        Bool.false_eq_true, if_false, ne_eq, not_true_eq_false, reduceIte,
        h1, h2, h3, h4, decide_eq_true_eq]
      simp [h1, h2, h3, h4]
    rw [hred content, hred (String.mk (collapseBlankRuns
      (lcpGo (getCommentStyle extension).pfx.toList none content.toList).1))]
    have hnol : ¬ (getCommentStyle extension).pfx.toList <:+:
        (lcpGo (getCommentStyle extension).pfx.toList none content.toList).1 :=
      lcpGo_no_occurrence _ hpl_ne hpl_nt content.toList none
    have hnoc : ¬ (getCommentStyle extension).pfx.toList <:+:
        collapseBlankRuns (lcpGo (getCommentStyle extension).pfx.toList none content.toList).1 :=
      collapseGo_not_infix _ hpl_ne hpl_nws _ [] (by simp) hnol
    have hid := lcpGo_eq_of_no_occurrence (getCommentStyle extension).pfx.toList
      (collapseBlankRuns (lcpGo (getCommentStyle extension).pfx.toList none content.toList).1) hnoc
    have htl : (String.mk (collapseBlankRuns
        (lcpGo (getCommentStyle extension).pfx.toList none content.toList).1)).toList =
        collapseBlankRuns (lcpGo (getCommentStyle extension).pfx.toList none content.toList).1 := rfl
    rw [htl, hid]
    simp only [Prod.mk.injEq]
    constructor
    · have := collapseGo_nil_idem
        (lcpGo (getCommentStyle extension).pfx.toList none content.toList).1
      unfold collapseBlankRuns
      rw [this]
    · trivial

/-- Witness for C3 at the `.ts` style — a JS/TS dialect, so both the line
pass and the extra block pass run — on content with a line comment, a block
comment and a blank run. -/
theorem C3_line_style_idempotent_witness :
    (getCommentStyle ".ts").sfx = "" ∧
    removeCommentsFromContent
        (removeCommentsFromContent "a // one\n/* two */\nb\n\n\n\n\nc" ".ts"
            (getCommentStyle ".ts").pfx (getCommentStyle ".ts").sfx).1
        ".ts" (getCommentStyle ".ts").pfx (getCommentStyle ".ts").sfx =
      ((removeCommentsFromContent "a // one\n/* two */\nb\n\n\n\n\nc" ".ts"
          (getCommentStyle ".ts").pfx (getCommentStyle ".ts").sfx).1, 0) :=
  ⟨by decide, C3_line_style_idempotent "a // one\n/* two */\nb\n\n\n\n\nc" ".ts" (by decide)⟩

end Komments
